import Mathlib

/-!
# Student Management System — formal model and verification

Shallow embedding of the record store, grade computation, comparators,
statistics and CSV codec of the student management program
(src/student_management_system_(final).c), together with proofs of the
specification claims.

Modelling conventions:

* C byte strings (NUL-terminated `char` arrays) are modelled as `List Char`;
  the functions that traverse a C string up to its terminator are modelled on
  the list up to its first NUL character where that matters (`lowerBytes`).
* C `float` values are modelled as exact rationals `ℚ`.  For every comparison
  the program performs against the grade thresholds 50/60/75/90 this is
  faithful: the averages the program computes are `k/n` with `n ≤ 10` and
  `k ≤ 1000`, whose distance from a threshold is either `0` (exactly
  representable in `float`) or at least `1/10`, far above the `float`
  rounding error (`< 2⁻¹⁰`).
* C `int` is modelled as `Int` (no overflow in any scenario the claims
  quantify over).
* The persistence file is modelled as a list of lines (`List (List Char)`,
  newline characters excluded); `fgets`'s 1023-byte line buffer and the
  512-byte marks buffer are modelled by the corresponding `List.take`
  truncations where the C code applies them.
* `strtok` keeps one saved pointer shared by every call in the program.
  The parse loop of `loadAll` is modelled with that state passed explicitly
  (`strtokStep`), including the re-seeding of the shared pointer onto the
  marks copy buffer `tmp` at line 213, which the later average and grade
  reads of the same loop iteration then continue from.
-/

namespace StudentMS

/- The Batteries rational-number operations are `@[irreducible]`; this
development evaluates them on concrete data (witness records, concrete CSV
lines), so restore the ordinary unfolding behaviour inside this file. -/
attribute [local semireducible] Rat.mul Rat.add Rat.sub Rat.inv

/-- `MAX_STUDENTS` from the source. -/
abbrev MAX_STUDENTS : Nat := 1000

/-- `MAX_NAME` from the source. -/
abbrev MAX_NAME : Nat := 100

/-- `MAX_SUBJECTS` from the source. -/
abbrev MAX_SUBJECTS : Nat := 10

/-- The `Student` struct: roll number, name, number of subjects, marks,
derived average and letter grade. -/
structure Student where
  roll : Int
  name : List Char
  subjectCount : Nat
  marks : List Int
  average : ℚ
  grade : Char
deriving DecidableEq

/-- The §4.1 threshold table of the specification, read as a predicate on a
record: the grade letter agrees with the band its average falls in, every
band inclusive at its lower bound. -/
def gradeMatchesThresholds (s : Student) : Prop :=
  (s.grade = 'A' ↔ 90 ≤ s.average) ∧
  (s.grade = 'B' ↔ 75 ≤ s.average ∧ s.average < 90) ∧
  (s.grade = 'C' ↔ 60 ≤ s.average ∧ s.average < 75) ∧
  (s.grade = 'D' ↔ 50 ≤ s.average ∧ s.average < 60) ∧
  (s.grade = 'F' ↔ s.average < 50)

/-- `sanitizeName`: commas in a name are replaced by spaces. -/
def sanitizeName (name : List Char) : List Char :=
  name.map (fun c => if c = ',' then ' ' else c)

/-- `calculateGrade`: the threshold table, evaluated top-down. -/
def calculateGrade (avg : ℚ) : Char :=
  if avg ≥ 90 then 'A'
  else if avg ≥ 75 then 'B'
  else if avg ≥ 60 then 'C'
  else if avg ≥ 50 then 'D'
  else 'F'

/-- `recompute`: average := sum of the first `subjectCount` marks divided by
`subjectCount`; grade := `calculateGrade average`.  (The C loop reads
`marks[0] .. marks[subjectCount-1]`, hence the `take`.) -/
def recompute (s : Student) : Student :=
  let sum : Int := (s.marks.take s.subjectCount).sum
  let avg : ℚ := (sum : ℚ) / (s.subjectCount : ℚ)
  { s with average := avg, grade := calculateGrade avg }

/-- `findMaxRoll`: fold over the store, starting from `0`, keeping the larger
roll at each step. -/
def findMaxRoll (store : List Student) : Int :=
  store.foldl (fun maxr s => if s.roll > maxr then s.roll else maxr) 0

/-- `findIndexByRoll`: index of the first record with the given roll. -/
def findIndexByRoll (store : List Student) (roll : Int) : Option Nat :=
  store.findIdx? (fun s => s.roll == roll)

/-- `addStudent`: capacity check, empty-name check, roll assignment
(`findMaxRoll + 1`), name sanitization and truncation to `MAX_NAME - 1`
bytes, derived-field computation, append.  Returns the new store and the
record that was appended (`none` on the error paths, where the store is
unchanged).  The subject count and marks arrive already validated from the
UI layer (`inputIntInRange`), with `subjectCount = marks.length`. -/
def addStudent (store : List Student) (nm : List Char) (marks : List Int) :
    List Student × Option Student :=
  if store.length ≥ MAX_STUDENTS then (store, none)
  else if nm = [] then (store, none)
  else
    let s : Student := recompute
      { roll := findMaxRoll store + 1
        name := (sanitizeName nm).take (MAX_NAME - 1)
        subjectCount := marks.length
        marks := marks
        average := 0
        grade := Char.ofNat 0 }
    (store ++ [s], some s)

/-- `updateStudent`, choice 1 (name update): on a found roll and a non-empty
new name, the record's name is replaced (sanitized, truncated) and the
record is recomputed (line 365 of the source runs `recompute` even on the
name-only path).  An empty new name leaves the store unchanged. -/
def updateName (store : List Student) (roll : Int) (nm : List Char) :
    List Student :=
  match findIndexByRoll store roll with
  | none => store
  | some idx =>
    if nm = [] then store
    else
      match store[idx]? with
      | none => store
      | some s =>
        store.set idx
          (recompute { s with name := (sanitizeName nm).take (MAX_NAME - 1) })

/-- `updateStudent`, choice 2 (subjects & marks update): subject count and
marks are replaced and the record recomputed (`recompute` runs twice in the
source, at lines 359 and 365). -/
def updateMarks (store : List Student) (roll : Int) (marks : List Int) :
    List Student :=
  match findIndexByRoll store roll with
  | none => store
  | some idx =>
    match store[idx]? with
    | none => store
    | some s =>
      store.set idx
        (recompute (recompute { s with subjectCount := marks.length, marks := marks }))

/-- `deleteStudent` (after the confirmation prompt): on a found roll the
record is removed and later records shift left by one; on a missing roll the
store is untouched and the boolean reports the failure (`NotFound`). -/
def deleteStudent (store : List Student) (roll : Int) : List Student × Bool :=
  match findIndexByRoll store roll with
  | none => (store, false)
  | some idx => (store.eraseIdx idx, true)

/-- ASCII `tolower` on a byte value (default C locale). -/
def byteLower (n : Nat) : Nat :=
  if 65 ≤ n ∧ n ≤ 90 then n + 32 else n

/-- The byte sequence `strcasecmp` sees for a name: the bytes up to the first
NUL terminator, lowered. -/
def lowerBytes (name : List Char) : List Nat :=
  (name.takeWhile (fun c => c ≠ Char.ofNat 0)).map (fun c => byteLower c.toNat)

/-- `strcasecmp` on already-lowered byte sequences: `0` on equality, else the
difference of the first differing bytes (a missing byte reads as `0`, the
NUL terminator). -/
def byteCaseCmp : List Nat → List Nat → Int
  | [], [] => 0
  | [], b :: _ => -(b : Int)
  | a :: _, [] => (a : Int)
  | a :: as, b :: bs => if a = b then byteCaseCmp as bs else (a : Int) - (b : Int)

/-- `cmpRollAsc`: difference of rolls. -/
def cmpRollAsc (x y : Student) : Int := x.roll - y.roll

/-- `cmpRollDesc`: negation of `cmpRollAsc`. -/
def cmpRollDesc (x y : Student) : Int := -(cmpRollAsc x y)

/-- `cmpNameAsc`: `strcasecmp` on the names. -/
def cmpNameAsc (x y : Student) : Int := byteCaseCmp (lowerBytes x.name) (lowerBytes y.name)

/-- `cmpNameDesc`: negation of `cmpNameAsc`. -/
def cmpNameDesc (x y : Student) : Int := -(cmpNameAsc x y)

/-- `cmpAvgAsc`: three-way comparison of the averages. -/
def cmpAvgAsc (x y : Student) : Int :=
  if x.average < y.average then -1 else if x.average > y.average then 1 else 0

/-- `cmpAvgDesc`: negation of `cmpAvgAsc`. -/
def cmpAvgDesc (x y : Student) : Int := -(cmpAvgAsc x y)

/-- `qsort` with a comparator, modelled as a sort under the relation
"compares ≤ 0".  `qsort` guarantees a permutation ordered by the comparator
and nothing more; whenever the sort keys are pairwise distinct (the situation
every claim about sorting quantifies over) that fixes the output uniquely,
so the algorithm choice is irrelevant. -/
def sortStudents (cmp : Student → Student → Int) (store : List Student) :
    List Student :=
  List.insertionSort (fun x y => cmp x y ≤ 0) store

/-- The index/value scan of `showStats`: starting from a current best
`(index, value)`, each element at position `i` replaces the best exactly when
`better element best` holds (`>` for the topper, `<` for the lowest). -/
def scanBest (better : ℚ → ℚ → Bool) : List ℚ → Nat → Nat × ℚ → Nat × ℚ
  | [], _, best => best
  | a :: rest, i, best =>
    scanBest better rest (i + 1) (if better a best.2 then (i, a) else best)

/-- `showStats`, pure core: on a non-empty store, the class average
(`classSum / studentCount`), the topper index and the lowest index.  The C
loop runs the three accumulations in a single pass with `topIdx = lowIdx = 0`
initially; iteration `i = 0` compares a record with itself, so the scan of
the tail starting from best `(0, average₀)` is the same computation. -/
def showStats (store : List Student) : Option (ℚ × Nat × Nat) :=
  match store with
  | [] => none
  | s0 :: rest =>
    let classSum : ℚ := (s0 :: rest).foldl (fun acc s => acc + s.average) 0
    let tailAvgs := rest.map (fun s => s.average)
    let t := (scanBest (fun a b => decide (b < a)) tailAvgs 1 (0, s0.average)).1
    let lo := (scanBest (fun a b => decide (a < b)) tailAvgs 1 (0, s0.average)).1
    some (classSum / ((s0 :: rest).length : ℚ), t, lo)

/-- Specification predicate for the topper scan: position `t` holds value
`tv`, every value is at most `tv`, and every position before `t` is strictly
below `tv` — i.e. `t` is the earliest maximum. -/
def isFirstMax (avgs : List ℚ) (t : Nat) (tv : ℚ) : Prop :=
  t < avgs.length ∧ avgs.getD t 0 = tv ∧
    (∀ j, j < avgs.length → avgs.getD j 0 ≤ tv) ∧ ∀ j, j < t → avgs.getD j 0 < tv

/-- Specification predicate for the lowest scan: the earliest minimum. -/
def isFirstMin (avgs : List ℚ) (t : Nat) (tv : ℚ) : Prop :=
  t < avgs.length ∧ avgs.getD t 0 = tv ∧
    (∀ j, j < avgs.length → tv ≤ avgs.getD j 0) ∧ ∀ j, j < t → tv < avgs.getD j 0

/- ------------------------- Codec (CSV persistence) ------------------------ -/

/-- Decimal digit characters of `n`, most significant first, by repeated
division; the first argument is structural fuel (`n` itself suffices). -/
def natDigitsAux : Nat → Nat → List Char
  | 0, _ => []
  | _, 0 => []
  | fuel + 1, n => natDigitsAux fuel (n / 10) ++ [Char.ofNat (48 + n % 10)]

/-- The decimal rendering of a natural number, as `printf "%d"` produces it. -/
def natDecimal (n : Nat) : List Char :=
  if n = 0 then ['0'] else natDigitsAux n n

/-- The decimal rendering of an integer, as `printf "%d"` produces it. -/
def intDecimal (n : Int) : List Char :=
  (if n < 0 then ['-'] else []) ++ natDecimal n.natAbs

/-- Value of a digit string (each character a decimal digit), most
significant first. -/
def parseDigits (cs : List Char) : Nat :=
  cs.foldl (fun acc c => acc * 10 + (c.toNat - 48)) 0

/-- The whitespace characters `isspace` accepts in the C locale. -/
def isSpaceByte (c : Char) : Bool :=
  c = ' ' ∨ c = '\t' ∨ c = '\n' ∨ c = Char.ofNat 11 ∨ c = Char.ofNat 12 ∨ c = '\r'

/-- C `atoi`: skip whitespace, optional sign, leading digit run (empty run
gives `0`); trailing junk is ignored.  (`int` overflow never occurs for the
inputs the claims range over.) -/
def atoiChars (cs : List Char) : Int :=
  match cs.dropWhile isSpaceByte with
  | [] => 0
  | c :: rest =>
    if c = '-' then -(parseDigits (rest.takeWhile Char.isDigit) : Int)
    else if c = '+' then (parseDigits (rest.takeWhile Char.isDigit) : Int)
    else (parseDigits ((c :: rest).takeWhile Char.isDigit) : Int)

/-- The sign handling of `atof`: a leading `-` or `+` is consumed and
determines the sign factor. -/
def signSplit (l : List Char) : ℚ × List Char :=
  match l with
  | [] => (1, [])
  | c :: rest =>
    if c = '-' then (-1, rest)
    else if c = '+' then (1, rest)
    else (1, c :: rest)

/-- The fractional block of `atof`: a leading dot followed by a digit run;
anything else contributes nothing. -/
def fracPart (l : List Char) : List Char :=
  match l with
  | [] => []
  | c :: r => if c = '.' then r.takeWhile Char.isDigit else []

/-- C `atof`, restricted to `[sign] digits [. digits]` — the only shape of
token this program ever writes or is given by its own files; exponent
notation is not modelled.  Trailing junk is ignored, as in C. -/
def atofQ (cs : List Char) : ℚ :=
  let signed := signSplit (cs.dropWhile isSpaceByte)
  let ip := signed.2.takeWhile Char.isDigit
  let fp := fracPart (signed.2.dropWhile Char.isDigit)
  signed.1 * ((parseDigits ip : ℚ) + (parseDigits fp : ℚ) / (10 : ℚ) ^ fp.length)

/-- Two-digit zero-padded rendering of `k < 100`, the fractional part
`printf "%.2f"` emits. -/
def pad2 (k : Nat) : List Char :=
  if k < 10 then '0' :: natDecimal k else natDecimal k

/-- `printf "%.2f"`: the value scaled by 100 and rounded to an integer, then
printed as integer part, dot, two fractional digits.  (glibc rounds the
binary float to the nearest 2-decimal string; exact ties, which round to
even, are abstracted as `round`, half away from zero upward — no claim
depends on the tie direction.) -/
def format2dec (q : ℚ) : List Char :=
  let n : Int := round (q * 100)
  (if n < 0 then ['-'] else []) ++
    natDecimal (n.natAbs / 100) ++ '.' :: pad2 (n.natAbs % 100)

/-- Rounding a rational to two decimal places: what survives a trip through
`printf "%.2f"` and `atof`. -/
def round2 (q : ℚ) : ℚ := (round (q * 100) : ℚ) / 100

/-- The separator-printing loop of `saveAll`: parts joined with a single
separator between consecutive parts. -/
def joinSep (sep : Char) : List (List Char) → List Char
  | [] => []
  | [p] => p
  | p :: q :: ps => p ++ sep :: joinSep sep (q :: ps)

/-- One CSV line of `saveAll`:
`roll,name,subjectCount,mark₁;…;markₙ,average,grade` (the marks loop prints
`marks[0] .. marks[subjectCount-1]`). -/
def serializeStudent (s : Student) : List Char :=
  intDecimal s.roll ++ ',' :: s.name ++ ',' :: natDecimal s.subjectCount ++
    ',' :: joinSep ';' ((s.marks.take s.subjectCount).map intDecimal) ++
    ',' :: format2dec s.average ++ [',', s.grade]

/-- The header line `saveAll` writes first. -/
def headerLine : List Char := ("roll,name,subjectCount,marks,average,grade").data

/-- `saveAll`: the header line followed by one line per record. -/
def saveAll (store : List Student) : List (List Char) :=
  headerLine :: store.map serializeStudent

/-- The newline stripping at the top of the `loadAll` parse loop: one
trailing `'\n'` or `'\r'` is removed. -/
def stripEol (l : List Char) : List Char :=
  match l.getLast? with
  | some c => if c = '\n' ∨ c = '\r' then l.dropLast else l
  | none => l

/-- One call to C `strtok` with a single-character delimiter.  `strtok`
keeps a single saved pointer shared by every call in the program; this
function maps the saved string (the text from that pointer to the NUL
terminator) to the returned token (`none` models `NULL`) together with the
new saved string.  Leading delimiters are skipped; the token runs to the
next delimiter; the saved pointer is placed just past that delimiter, or at
the terminator when no delimiter follows. -/
def strtokStep (d : Char) (s : List Char) : Option (List Char) × List Char :=
  match s.dropWhile (fun c => c == d) with
  | [] => (none, [])
  | a :: rest =>
    (some ((a :: rest).takeWhile (fun c => c != d)),
      ((a :: rest).dropWhile (fun c => c != d)).tail)

/-- The marks loop of `loadAll` (`while (mtok && idx < s.subjectCount)`,
lines 214-217, followed by the `idx != s.subjectCount` check at line 218).
The `Nat` argument counts the slots still to fill (`subjectCount - idx`);
the pair is the token just fetched together with the shared `strtok` state,
which after the `strtok(tmp, ";")` re-seeding at line 213 lies inside the
copy buffer `tmp`.  Returns the collected marks, the number of unfilled
slots (nonzero means the line 218 check fails) and the final shared
`strtok` state. -/
def marksLoop : Nat → Option (List Char) × List Char → List Int →
    List Int × Nat × List Char
  | remaining, (none, st), acc => (acc, remaining, st)
  | 0, (some _, st), acc => (acc, 0, st)
  | Nat.succ r, (some t, st), acc =>
    marksLoop r (strtokStep ';' st) (acc ++ [atoiChars t])

/-- The grade read of the `loadAll` parse loop (line 227): one more
`strtok(NULL, ",")` on the shared state, `continue` on `NULL`, else
`s.grade = tok[0]` and the record is complete. -/
def parseGrade (rollTok nameTok : List Char) (cntN : Nat) (marks : List Int)
    (avgTok : List Char) (st6 : List Char) : Option Student :=
  match strtokStep ',' st6 with
  | (none, _) => none
  | (some gradeTok, _) =>
    some
      { roll := atoiChars rollTok
        name := nameTok.take (MAX_NAME - 1)
        subjectCount := cntN
        marks := marks
        average := atofQ avgTok
        grade := gradeTok.headD (Char.ofNat 0) }

/-- The average read of the `loadAll` parse loop (line 222) followed by the
grade read: both call `strtok(NULL, ",")` — but the single shared saved
pointer was re-seeded on the copy buffer `tmp` at line 213, so they
tokenize the remainder of the marks buffer, not the rest of the line. -/
def parseAfterMarks (rollTok nameTok : List Char) (cntN : Nat)
    (marks : List Int) (st : List Char) : Option Student :=
  match strtokStep ',' st with
  | (none, _) => none
  | (some avgTok, st6) => parseGrade rollTok nameTok cntN marks avgTok st6

/-- The parse-loop tail from the subjectCount value on: check
`1 ≤ subjectCount ≤ MAX_SUBJECTS` (line 204); read the marks field by comma
(line 206); copy it into the 512-byte buffer `tmp`, truncating to 511
characters (lines 209-211); re-seed the shared `strtok` state on `tmp` and
run the marks loop (lines 212-218); then read average and grade from
wherever the shared state now points (lines 222 and 227). -/
def parseFrom3 (rollTok nameTok cntTok : List Char) (st3 : List Char) :
    Option Student :=
  if atoiChars cntTok < 1 ∨ atoiChars cntTok > (MAX_SUBJECTS : Int) then none
  else
    match strtokStep ',' st3 with
    | (none, _) => none
    | (some marksTok, _) =>
      let res := marksLoop (atoiChars cntTok).toNat
        (strtokStep ';' (marksTok.take 511)) []
      if res.2.1 ≠ 0 then none
      else parseAfterMarks rollTok nameTok (atoiChars cntTok).toNat res.1 res.2.2

/-- The parse-loop tail from the subjectCount read (line 200) on. -/
def parseFrom2 (rollTok nameTok : List Char) (st2 : List Char) :
    Option Student :=
  match strtokStep ',' st2 with
  | (none, _) => none
  | (some cntTok, st3) => parseFrom3 rollTok nameTok cntTok st3

/-- The parse-loop tail from the name read (line 194) on. -/
def parseFrom1 (rollTok : List Char) (st1 : List Char) : Option Student :=
  match strtokStep ',' st1 with
  | (none, _) => none
  | (some nameTok, st2) => parseFrom2 rollTok nameTok st2

/-- One iteration of the `loadAll` parse loop (lines 180-231), tracking the
single shared `strtok` saved pointer the whole way through.  Roll (line
188), name (line 194) and subjectCount (line 200) are read off the line by
comma; `parseFrom3` finishes the iteration.  A `none` result models the
iteration's `continue`. -/
def parseLine (line : List Char) : Option Student :=
  match strtokStep ',' (stripEol line) with
  | (none, _) => none
  | (some rollTok, st1) => parseFrom1 rollTok st1

/-- The read loop of `loadAll`: parse lines in order, appending each parsed
record, while fewer than `MAX_STUDENTS` records have been accepted. -/
def loadLoop : List (List Char) → List Student → List Student
  | [], acc => acc
  | l :: ls, acc =>
    if acc.length < MAX_STUDENTS then
      match parseLine l with
      | none => loadLoop ls acc
      | some s => loadLoop ls (acc ++ [s])
    else acc

/-- The header handling of `loadAll`: a first line whose first five
characters are `roll,` is consumed; otherwise parsing starts at the first
line. -/
def stripHeader (lines : List (List Char)) : List (List Char) :=
  match lines with
  | [] => []
  | l :: ls => if l.take 5 = ("roll,").data then ls else l :: ls

/-- `loadAll` on the contents of the data file (a missing file is the empty
line list, which loads the empty store). -/
def loadAll (lines : List (List Char)) : List Student :=
  loadLoop (stripHeader lines) []

/-- Well-formed record: the shape every record held by the running program
has.  Name non-empty, within the `char name[MAX_NAME]` buffer, comma-free
(guaranteed by `sanitizeName`), newline-free and NUL-free (guaranteed by
`safeGets` / line-based parsing) and made of bytes; subject count in
`[1, MAX_SUBJECTS]` with exactly that many marks, each in `[0, 100]`; grade
one of the five letters `calculateGrade` produces. -/
def WF (s : Student) : Prop :=
  s.name ≠ [] ∧ s.name.length ≤ MAX_NAME - 1 ∧ ',' ∉ s.name ∧ '\n' ∉ s.name ∧
    Char.ofNat 0 ∉ s.name ∧ (∀ c ∈ s.name, c.toNat < 256) ∧
    1 ≤ s.subjectCount ∧ s.subjectCount ≤ MAX_SUBJECTS ∧
    s.marks.length = s.subjectCount ∧ (∀ m ∈ s.marks, 0 ≤ m ∧ m ≤ 100) ∧
    s.grade ∈ (['A', 'B', 'C', 'D', 'F'] : List Char)

instance : DecidablePred WF := fun s => by unfold WF; infer_instance

/-- Store states reachable through the public operations.  The side
conditions on `add` and the two updates are the §6 collaborator contract:
the UI layer supplies marks already validated by `inputIntInRange`
(`0..100`, between 1 and `MAX_SUBJECTS` of them) and names read by
`safeGets` (single-line byte strings).  `load` is a restart of the program
on a persistence file of arbitrary content (including, but not limited to,
a file the program saved itself). -/
inductive Reachable : List Student → Prop
  | empty : Reachable []
  | add {st : List Student} (nm : List Char) (marks : List Int)
      (hnm : '\n' ∉ nm ∧ Char.ofNat 0 ∉ nm ∧ ∀ c ∈ nm, c.toNat < 256)
      (hcnt : 1 ≤ marks.length ∧ marks.length ≤ MAX_SUBJECTS)
      (hmarks : ∀ m ∈ marks, 0 ≤ m ∧ m ≤ 100) :
      Reachable st → Reachable (addStudent st nm marks).1
  | updName {st : List Student} (roll : Int) (nm : List Char)
      (hnm : '\n' ∉ nm ∧ Char.ofNat 0 ∉ nm ∧ ∀ c ∈ nm, c.toNat < 256) :
      Reachable st → Reachable (updateName st roll nm)
  | updMarks {st : List Student} (roll : Int) (marks : List Int)
      (hcnt : 1 ≤ marks.length ∧ marks.length ≤ MAX_SUBJECTS)
      (hmarks : ∀ m ∈ marks, 0 ≤ m ∧ m ≤ 100) :
      Reachable st → Reachable (updateMarks st roll marks)
  | del {st : List Student} (roll : Int) :
      Reachable st → Reachable (deleteStudent st roll).1
  | sortOp {st : List Student} (cmp : Student → Student → Int) :
      Reachable st → Reachable (sortStudents cmp st)
  | load {st : List Student} (lines : List (List Char)) :
      Reachable st → Reachable (loadAll lines)

/-! ## Theorems -/

/-- `calculateGrade` realizes the §4.1 threshold table: each letter is
returned exactly on its band, bands inclusive at the lower bound,
first match winning. -/
theorem calculateGrade_thresholds (q : ℚ) :
    (calculateGrade q = 'A' ↔ 90 ≤ q) ∧ (calculateGrade q = 'B' ↔ 75 ≤ q ∧ q < 90) ∧
    (calculateGrade q = 'C' ↔ 60 ≤ q ∧ q < 75) ∧ (calculateGrade q = 'D' ↔ 50 ≤ q ∧ q < 60) ∧
    (calculateGrade q = 'F' ↔ q < 50) := by
  unfold calculateGrade
  split_ifs with h1 h2 h3 h4 <;>
    refine ⟨?_, ?_, ?_, ?_, ?_⟩ <;> constructor <;> intro h <;>
    first
      | rfl
      | linarith
      | (exact absurd h (by decide))
      | (constructor <;> linarith)

/-- `calculateGrade` only produces the five letters A, B, C, D, F. -/
theorem calculateGrade_mem (q : ℚ) :
    calculateGrade q ∈ (['A', 'B', 'C', 'D', 'F'] : List Char) := by
  unfold calculateGrade
  split_ifs <;> simp

/-- `recompute` leaves every field except `average` and `grade` unchanged. -/
theorem recompute_fields (s : Student) :
    (recompute s).roll = s.roll ∧ (recompute s).name = s.name ∧
    (recompute s).subjectCount = s.subjectCount ∧ (recompute s).marks = s.marks :=
  ⟨rfl, rfl, rfl, rfl⟩

/-- **C1.** For a record whose scores are in range and whose score count is
in `[1, MAX_SUBJECTS]` and matches the score list, `recompute` sets
`average` to the arithmetic mean `sum(scores) / len(scores)` (exact
division) and sets `grade` according to the §4.1 threshold table, each
boundary inclusive at the lower bound. -/
theorem recompute_mean_and_grade (s : Student)
    (hlen : s.marks.length = s.subjectCount)
    (hcnt : 1 ≤ s.subjectCount ∧ s.subjectCount ≤ MAX_SUBJECTS)
    (hmarks : ∀ m ∈ s.marks, 0 ≤ m ∧ m ≤ 100) :
    (recompute s).average = (s.marks.sum : ℚ) / (s.marks.length : ℚ) ∧
      gradeMatchesThresholds (recompute s) := by
  have htake : s.marks.take s.subjectCount = s.marks := by
    rw [← hlen]; exact List.take_length s.marks
  have havg : (recompute s).average = (s.marks.sum : ℚ) / (s.marks.length : ℚ) := by
    simp [recompute, htake, hlen]
  refine ⟨havg, ?_⟩
  have hg : (recompute s).grade = calculateGrade (recompute s).average := rfl
  unfold gradeMatchesThresholds
  rw [hg]
  exact calculateGrade_thresholds (recompute s).average

/-- Witness for C1: the scenario record with marks 85, 90, 78. -/
theorem recompute_mean_and_grade_witness :
    (recompute ⟨1, ['A'], 3, [85, 90, 78], 0, 'X'⟩).average
        = (([85, 90, 78] : List Int).sum : ℚ) / (([85, 90, 78] : List Int).length : ℚ) ∧
      gradeMatchesThresholds (recompute ⟨1, ['A'], 3, [85, 90, 78], 0, 'X'⟩) :=
  recompute_mean_and_grade ⟨1, ['A'], 3, [85, 90, 78], 0, 'X'⟩ (by decide) (by decide)
    (by decide)

/-- **C6.** Deleting a roll held by no live record reports `NotFound`
(`false`) and returns the collection completely unchanged — same length,
same records, same order; no partial mutation happens on this path. -/
theorem deleteStudent_missing_roll (store : List Student) (roll : Int)
    (h : ∀ s ∈ store, s.roll ≠ roll) :
    deleteStudent store roll = (store, false) := by
  have hnone : findIndexByRoll store roll = none := by
    unfold findIndexByRoll
    rw [List.findIdx?_eq_none_iff]
    intro s hs
    simpa using h s hs
  unfold deleteStudent
  rw [hnone]

/-- Witness for C6: deleting roll 2 from a store holding only roll 1. -/
theorem deleteStudent_missing_roll_witness :
    deleteStudent [⟨1, ['A'], 1, [50], 50, 'D'⟩] 2 = ([⟨1, ['A'], 1, [50], 50, 'D'⟩], false) :=
  deleteStudent_missing_roll [⟨1, ['A'], 1, [50], 50, 'D'⟩] 2 (by decide)

/-- The step function of `findMaxRoll` is `max`. -/
theorem findMaxRoll_step (m r : Int) : (if r > m then r else m) = max m r := by
  rcases le_or_lt r m with h | h
  · rw [max_eq_left h, if_neg (not_lt.mpr h)]
  · rw [max_eq_right h.le, if_pos h]

/-- Left `max`-folds equal right `max`-folds (same seed). -/
theorem foldl_max_eq_foldr_max : ∀ (l : List Int) (a : Int),
    l.foldl max a = l.foldr max a := by
  intro l
  induction l with
  | nil => intro a; rfl
  | cons x xs ih =>
    intro a
    have swap : ∀ (ys : List Int) (b c : Int),
        ys.foldr max (max b c) = max c (ys.foldr max b) := by
      intro ys
      induction ys with
      | nil => intro b c; exact max_comm b c
      | cons y ys ihy =>
        intro b c
        simp only [List.foldr_cons, ihy b c]
        rw [max_left_comm]
    simp only [List.foldl_cons, List.foldr_cons, ih (max a x)]
    exact swap xs a x

/-- `findMaxRoll` computes the maximum of the rolls and `0`. -/
theorem findMaxRoll_eq (store : List Student) :
    findMaxRoll store = (store.map (fun t => t.roll)).foldr max 0 := by
  unfold findMaxRoll
  have h1 : store.foldl (fun maxr s => if s.roll > maxr then s.roll else maxr) 0
      = store.foldl (fun maxr s => max maxr s.roll) 0 := by
    congr 1
    funext m s
    exact findMaxRoll_step m s.roll
  rw [h1, ← List.foldl_map (fun t : Student => t.roll) max store 0,
    foldl_max_eq_foldr_max]

/-- Every roll in the store is bounded by `findMaxRoll`. -/
theorem roll_le_findMaxRoll (store : List Student) (t : Student) (ht : t ∈ store) :
    t.roll ≤ findMaxRoll store := by
  rw [findMaxRoll_eq]
  have : ∀ (l : List Int) (x : Int), x ∈ l → x ≤ l.foldr max 0 := by
    intro l
    induction l with
    | nil => intro x hx; cases hx
    | cons y ys ihy =>
      intro x hx
      rcases List.mem_cons.mp hx with rfl | hx
      · exact le_max_left _ _
      · exact le_trans (ihy x hx) (le_max_right _ _)
  exact this _ t.roll (List.mem_map_of_mem (fun t => t.roll) ht)

/-- A successful add appends a record with roll `1 + max(0, existing
rolls)`, fresh among the live rolls (helper shared by several proofs). -/
theorem addStudent_appends_fresh (store : List Student) (nm : List Char)
    (marks : List Int) (hcap : store.length < MAX_STUDENTS) (hnm : nm ≠ []) :
    ∃ s, (addStudent store nm marks).2 = some s ∧
      (addStudent store nm marks).1 = store ++ [s] ∧
      s.roll = 1 + (store.map (fun t => t.roll)).foldr max 0 ∧
      ∀ t ∈ store, t.roll ≠ s.roll := by
  unfold addStudent
  rw [if_neg (not_le.mpr hcap), if_neg hnm]
  have hroll : (recompute
      { roll := findMaxRoll store + 1
        name := (sanitizeName nm).take (MAX_NAME - 1)
        subjectCount := marks.length
        marks := marks
        average := 0
        grade := Char.ofNat 0 : Student }).roll = findMaxRoll store + 1 := rfl
  refine ⟨_, rfl, rfl, ?_, ?_⟩
  · rw [hroll, findMaxRoll_eq]
    ring
  · intro t ht heq
    have hle := roll_le_findMaxRoll store t ht
    rw [heq, hroll] at hle
    omega

/-- **C3 (amended).** A successful add appends a record whose roll is
`1 + max(0, existing rolls)` — which is `1 + max(existing rolls)` whenever
some roll is nonnegative, in particular on every store of positive rolls,
and `1` on the empty store — and this roll differs from the roll of every
live record. -/
theorem addStudent_roll_spec (store : List Student) (nm : List Char)
    (marks : List Int) (hcap : store.length < MAX_STUDENTS) (hnm : nm ≠ []) :
    ∃ s, (addStudent store nm marks).2 = some s ∧
      (addStudent store nm marks).1 = store ++ [s] ∧
      s.roll = 1 + (store.map (fun t => t.roll)).foldr max 0 ∧
      ∀ t ∈ store, t.roll ≠ s.roll :=
  addStudent_appends_fresh store nm marks hcap hnm

/-- Witness for C3 (amended): adding to a one-record store with roll 1. -/
theorem addStudent_roll_spec_witness :
    ∃ s, (addStudent [⟨1, ['A'], 1, [50], 50, 'D'⟩] ['B'] [60]).2 = some s ∧
      (addStudent [⟨1, ['A'], 1, [50], 50, 'D'⟩] ['B'] [60]).1
        = [⟨1, ['A'], 1, [50], 50, 'D'⟩] ++ [s] ∧
      s.roll = 1 + (([⟨1, ['A'], 1, [50], 50, 'D'⟩] : List Student).map
        (fun t => t.roll)).foldr max 0 ∧
      ∀ t ∈ ([⟨1, ['A'], 1, [50], 50, 'D'⟩] : List Student), t.roll ≠ s.roll :=
  addStudent_roll_spec [⟨1, ['A'], 1, [50], 50, 'D'⟩] ['B'] [60] (by decide) (by decide)

/-- **C3, counterexample.** On a store holding a single record with roll
`-5` (the claim quantifies over every store state), the add assigns roll
`1` (the fold in `findMaxRoll` starts at `0`), not
`1 + max(existing rolls) = -4` as the claim's formula demands. -/
theorem addStudent_roll_counterexample :
    Option.map Student.roll (addStudent [⟨-5, ['A'], 1, [50], 50, 'F'⟩] ['B'] [50]).2
        = some 1 ∧
      (⟨-5, ['A'], 1, [50], 50, 'F'⟩ : Student).roll = -5 ∧ (1 : Int) ≠ 1 + (-5) := by
  refine ⟨by decide, rfl, by decide⟩

/-- **C8 (amended).** Whatever record an add appends, its roll collides with
no live record — but a roll freed by a deletion can be assigned again (see
the counterexample), so freshness against live records is all that holds. -/
theorem addStudent_fresh_roll (store : List Student) (nm : List Char)
    (marks : List Int) (s : Student)
    (hadd : (addStudent store nm marks).2 = some s) :
    ∀ t ∈ store, t.roll ≠ s.roll := by
  unfold addStudent at hadd
  by_cases hcap : store.length ≥ MAX_STUDENTS
  · rw [if_pos hcap] at hadd; cases hadd
  · rw [if_neg hcap] at hadd
    by_cases hnm : nm = []
    · rw [if_pos hnm] at hadd; cases hadd
    · rw [if_neg hnm] at hadd
      obtain ⟨hcap2, hnm2⟩ := And.intro (not_le.mp hcap) hnm
      obtain ⟨s2, h1, _, _, hfresh⟩ :=
        addStudent_appends_fresh store nm marks hcap2 hnm2
      unfold addStudent at h1
      rw [if_neg (not_le.mpr hcap2), if_neg hnm] at h1
      cases hadd
      cases h1
      exact hfresh

/-- Witness for C8 (amended): the added roll 2 is fresh against the single
live record of roll 1. -/
theorem addStudent_fresh_roll_witness :
    (⟨1, ['A'], 1, [50], 50, 'D'⟩ : Student).roll
      ≠ (⟨2, ['B'], 1, [60], 60, 'C'⟩ : Student).roll :=
  addStudent_fresh_roll [⟨1, ['A'], 1, [50], 50, 'D'⟩] ['B'] [60]
    ⟨2, ['B'], 1, [60], 60, 'C'⟩ (by decide)
    ⟨1, ['A'], 1, [50], 50, 'D'⟩ (List.mem_singleton.mpr rfl)

/-- **C8, counterexample.** Add roll 1, add roll 2, delete roll 2, add
again: the new record receives roll 2, a value that was previously assigned
and then deleted — deleted rolls are reused. -/
theorem roll_reuse_counterexample :
    Option.map Student.roll ((addStudent ((addStudent [] ['A'] [50]).1) ['B'] [50]).2)
        = some 2 ∧
      (deleteStudent ((addStudent ((addStudent [] ['A'] [50]).1) ['B'] [50]).1) 2).2
        = true ∧
      Option.map Student.roll
          (addStudent ((deleteStudent ((addStudent ((addStudent [] ['A'] [50]).1)
            ['B'] [50]).1) 2).1) ['C'] [50]).2 = some 2 := by
  refine ⟨by decide, by decide, by decide⟩

/-- **C10.** A name-only update on an existing record (non-empty new name)
recomputes the record before returning: afterwards its average is the mean
of its scores and its grade matches the threshold table, regardless of how
stale the stored average or grade was; roll, marks and subject count are
untouched and the name is the sanitized, truncated new name. -/
theorem updateName_recomputes (store : List Student) (roll : Int)
    (nm : List Char) (idx : Nat) (s : Student)
    (hfind : findIndexByRoll store roll = some idx)
    (hs : store[idx]? = some s) (hnm : nm ≠ [])
    (hlen : s.marks.length = s.subjectCount) (hpos : 1 ≤ s.subjectCount) :
    ∃ s2, (updateName store roll nm)[idx]? = some s2 ∧
      s2.average = (s.marks.sum : ℚ) / (s.marks.length : ℚ) ∧
      s2.grade = calculateGrade s2.average ∧
      gradeMatchesThresholds s2 ∧
      s2.name = (sanitizeName nm).take (MAX_NAME - 1) ∧
      s2.roll = s.roll ∧ s2.marks = s.marks ∧ s2.subjectCount = s.subjectCount := by
  have hidx : idx < store.length := by
    by_contra hge
    rw [List.getElem?_eq_none (Nat.le_of_not_lt hge)] at hs
    cases hs
  have hupd : updateName store roll nm
      = store.set idx (recompute { s with name := (sanitizeName nm).take (MAX_NAME - 1) }) := by
    simp [updateName, hfind, hs, hnm]
  have htake : s.marks.take s.subjectCount = s.marks := by
    rw [← hlen]; exact List.take_length s.marks
  refine ⟨recompute { s with name := (sanitizeName nm).take (MAX_NAME - 1) },
    ?_, ?_, rfl, ?_, rfl, rfl, rfl, rfl⟩
  · rw [hupd]
    exact List.getElem?_set_self hidx
  · show ((({ s with name := (sanitizeName nm).take (MAX_NAME - 1) } :
        Student).marks.take ({ s with name := (sanitizeName nm).take (MAX_NAME - 1) } :
        Student).subjectCount).sum : ℚ) / _ = _
    simp only [htake, hlen]
  · have hg : (recompute { s with name := (sanitizeName nm).take (MAX_NAME - 1) }).grade
        = calculateGrade (recompute { s with
            name := (sanitizeName nm).take (MAX_NAME - 1) }).average := rfl
    unfold gradeMatchesThresholds
    rw [hg]
    exact calculateGrade_thresholds _

/-- Witness for C10: updating only the name of a record whose stored
average 0 and grade X are stale. -/
theorem updateName_recomputes_witness :
    ∃ s2, (updateName [⟨1, ['A'], 2, [80, 90], 0, 'X'⟩] 1 ['B', 'o', 'b'])[0]? = some s2 ∧
      s2.average = (([80, 90] : List Int).sum : ℚ) / (([80, 90] : List Int).length : ℚ) ∧
      s2.grade = calculateGrade s2.average ∧
      gradeMatchesThresholds s2 ∧
      s2.name = (sanitizeName ['B', 'o', 'b']).take (MAX_NAME - 1) ∧
      s2.roll = (⟨1, ['A'], 2, [80, 90], 0, 'X'⟩ : Student).roll ∧
      s2.marks = (⟨1, ['A'], 2, [80, 90], 0, 'X'⟩ : Student).marks ∧
      s2.subjectCount = (⟨1, ['A'], 2, [80, 90], 0, 'X'⟩ : Student).subjectCount :=
  updateName_recomputes [⟨1, ['A'], 2, [80, 90], 0, 'X'⟩] 1 ['B', 'o', 'b'] 0
    ⟨1, ['A'], 2, [80, 90], 0, 'X'⟩ (by decide) (by decide) (by decide) (by decide) (by decide)

/-- `getD` on the left part of an append. -/
theorem getD_append_lt (l1 l2 : List ℚ) (j : Nat) (h : j < l1.length) :
    (l1 ++ l2).getD j 0 = l1.getD j 0 := by
  rw [List.getD_eq_getElem?_getD, List.getD_eq_getElem?_getD,
    List.getElem?_append_left h]

/-- `getD` at the seam of an append with a singleton. -/
theorem getD_concat_length (l : List ℚ) (a : ℚ) :
    (l ++ [a]).getD l.length 0 = a := by
  rw [List.getD_eq_getElem?_getD, List.getElem?_concat_length]
  rfl

/-- The topper scan of `showStats`: starting from a best that is the
earliest maximum of the prefix scanned so far, scanning the remainder with
the strictly-greater test yields the earliest maximum of the whole list. -/
theorem scanBest_top_spec :
    ∀ (l pre : List ℚ) (b : Nat) (v : ℚ), isFirstMax pre b v →
      isFirstMax (pre ++ l)
        (scanBest (fun a c => decide (c < a)) l pre.length (b, v)).1
        (scanBest (fun a c => decide (c < a)) l pre.length (b, v)).2 := by
  intro l
  induction l with
  | nil => intro pre b v h; simpa [scanBest] using h
  | cons a rest ih =>
    intro pre b v h
    obtain ⟨hb, hbv, hle, hlt⟩ := h
    have hstep : scanBest (fun a c => decide (c < a)) (a :: rest) pre.length (b, v)
        = scanBest (fun a c => decide (c < a)) rest (pre.length + 1)
            (if v < a then (pre.length, a) else (b, v)) := by
      simp [scanBest]
    have hassoc : (pre ++ [a]) ++ rest = pre ++ a :: rest := by
      simp
    have hlen1 : (pre ++ [a]).length = pre.length + 1 := by simp
    by_cases hav : v < a
    · have hpre : isFirstMax (pre ++ [a]) pre.length a := by
        refine ⟨by simp, getD_concat_length pre a, ?_, ?_⟩
        · intro j hj
          rcases Nat.lt_or_ge j pre.length with hj2 | hj2
          · rw [getD_append_lt _ _ _ hj2]
            exact le_of_lt (lt_of_le_of_lt (hle j hj2) hav)
          · have : j = pre.length := by simp at hj; omega
            rw [this, getD_concat_length]
        · intro j hj
          rw [getD_append_lt _ _ _ hj]
          exact lt_of_le_of_lt (hle j hj) hav
      have h2 := ih (pre ++ [a]) pre.length a hpre
      rw [hassoc, hlen1] at h2
      rw [hstep, if_pos hav]
      exact h2
    · have hpre : isFirstMax (pre ++ [a]) b v := by
        refine ⟨by simp; omega, by rw [getD_append_lt _ _ _ hb]; exact hbv, ?_, ?_⟩
        · intro j hj
          rcases Nat.lt_or_ge j pre.length with hj2 | hj2
          · rw [getD_append_lt _ _ _ hj2]
            exact hle j hj2
          · have : j = pre.length := by simp at hj; omega
            rw [this, getD_concat_length]
            exact le_of_not_lt hav
        · intro j hj
          rw [getD_append_lt _ _ _ (lt_trans hj hb)]
          exact hlt j hj
      have h2 := ih (pre ++ [a]) b v hpre
      rw [hassoc, hlen1] at h2
      rw [hstep, if_neg hav]
      exact h2

/-- The lowest scan of `showStats`, mirror image of the topper scan. -/
theorem scanBest_low_spec :
    ∀ (l pre : List ℚ) (b : Nat) (v : ℚ), isFirstMin pre b v →
      isFirstMin (pre ++ l)
        (scanBest (fun a c => decide (a < c)) l pre.length (b, v)).1
        (scanBest (fun a c => decide (a < c)) l pre.length (b, v)).2 := by
  intro l
  induction l with
  | nil => intro pre b v h; simpa [scanBest] using h
  | cons a rest ih =>
    intro pre b v h
    obtain ⟨hb, hbv, hle, hlt⟩ := h
    have hstep : scanBest (fun a c => decide (a < c)) (a :: rest) pre.length (b, v)
        = scanBest (fun a c => decide (a < c)) rest (pre.length + 1)
            (if a < v then (pre.length, a) else (b, v)) := by
      simp [scanBest]
    have hassoc : (pre ++ [a]) ++ rest = pre ++ a :: rest := by
      simp
    have hlen1 : (pre ++ [a]).length = pre.length + 1 := by simp
    by_cases hav : a < v
    · have hpre : isFirstMin (pre ++ [a]) pre.length a := by
        refine ⟨by simp, getD_concat_length pre a, ?_, ?_⟩
        · intro j hj
          rcases Nat.lt_or_ge j pre.length with hj2 | hj2
          · rw [getD_append_lt _ _ _ hj2]
            exact le_of_lt (lt_of_lt_of_le hav (hle j hj2))
          · have : j = pre.length := by simp at hj; omega
            rw [this, getD_concat_length]
        · intro j hj
          rw [getD_append_lt _ _ _ hj]
          exact lt_of_lt_of_le hav (hle j hj)
      have h2 := ih (pre ++ [a]) pre.length a hpre
      rw [hassoc, hlen1] at h2
      rw [hstep, if_pos hav]
      exact h2
    · have hpre : isFirstMin (pre ++ [a]) b v := by
        refine ⟨by simp; omega, by rw [getD_append_lt _ _ _ hb]; exact hbv, ?_, ?_⟩
        · intro j hj
          rcases Nat.lt_or_ge j pre.length with hj2 | hj2
          · rw [getD_append_lt _ _ _ hj2]
            exact hle j hj2
          · have : j = pre.length := by simp at hj; omega
            rw [this, getD_concat_length]
            exact le_of_not_lt hav
        · intro j hj
          rw [getD_append_lt _ _ _ (lt_trans hj hb)]
          exact hlt j hj
      have h2 := ih (pre ++ [a]) b v hpre
      rw [hassoc, hlen1] at h2
      rw [hstep, if_neg hav]
      exact h2

/-- The running sum of the statistics loop is the list sum. -/
theorem foldl_add_average : ∀ (l : List Student) (a : ℚ),
    l.foldl (fun acc s => acc + s.average) a = a + (l.map (fun s => s.average)).sum := by
  intro l
  induction l with
  | nil => intro a; simp
  | cons x xs ih =>
    intro a
    simp only [List.foldl_cons, List.map_cons, List.sum_cons, ih (a + x.average)]
    ring

/-- **C4.** On a non-empty store, `showStats` returns the class average
(arithmetic mean of all `average` fields), the index of the topper — the
earliest record with maximal average — and the index of the lowest — the
earliest record with minimal average; both scans use strict comparison, so
on ties the first record in store order wins. -/
theorem showStats_spec (store : List Student) (hne : store ≠ []) :
    ∃ ca t lo, showStats store = some (ca, t, lo) ∧
      ca = (store.map (fun s => s.average)).sum / (store.length : ℚ) ∧
      isFirstMax (store.map (fun s => s.average)) t
        ((store.map (fun s => s.average)).getD t 0) ∧
      isFirstMin (store.map (fun s => s.average)) lo
        ((store.map (fun s => s.average)).getD lo 0) := by
  obtain ⟨s0, rest, rfl⟩ := List.exists_cons_of_ne_nil hne
  refine ⟨_, _, _, rfl, ?_, ?_, ?_⟩
  · rw [foldl_add_average]
    simp
  · have hpre : isFirstMax [s0.average] 0 s0.average := by
      refine ⟨by simp, by simp, ?_, by intro j hj; omega⟩
      intro j hj
      have : j = 0 := by simpa using hj
      simp [this]
    have h := scanBest_top_spec (rest.map (fun s => s.average)) [s0.average] 0 s0.average hpre
    have hl : ([s0.average] ++ rest.map (fun s => s.average))
        = (s0 :: rest).map (fun s => s.average) := by simp
    rw [hl] at h
    have hlen : ([s0.average] : List ℚ).length = 1 := rfl
    rw [hlen] at h
    obtain ⟨h1, h2, h3, h4⟩ := h
    refine ⟨h1, rfl, ?_, ?_⟩
    · intro j hj
      rw [h2]
      exact h3 j hj
    · intro j hj
      rw [h2]
      exact h4 j hj
  · have hpre : isFirstMin [s0.average] 0 s0.average := by
      refine ⟨by simp, by simp, ?_, by intro j hj; omega⟩
      intro j hj
      have : j = 0 := by simpa using hj
      simp [this]
    have h := scanBest_low_spec (rest.map (fun s => s.average)) [s0.average] 0 s0.average hpre
    have hl : ([s0.average] ++ rest.map (fun s => s.average))
        = (s0 :: rest).map (fun s => s.average) := by simp
    rw [hl] at h
    have hlen : ([s0.average] : List ℚ).length = 1 := rfl
    rw [hlen] at h
    obtain ⟨h1, h2, h3, h4⟩ := h
    refine ⟨h1, rfl, ?_, ?_⟩
    · intro j hj
      rw [h2]
      exact h3 j hj
    · intro j hj
      rw [h2]
      exact h4 j hj

/-- Witness for C4: the §8 scenario — Alice (average 253/3 ≈ 84.33) and
Bob (average 45). -/
theorem showStats_spec_witness :
    ∃ ca t lo,
      showStats [⟨1, ['A'], 3, [85, 90, 78], 253/3, 'B'⟩, ⟨2, ['B'], 3, [40, 45, 50], 45, 'F'⟩]
          = some (ca, t, lo) ∧
      ca = (([⟨1, ['A'], 3, [85, 90, 78], 253/3, 'B'⟩, ⟨2, ['B'], 3, [40, 45, 50], 45, 'F'⟩] :
          List Student).map (fun s => s.average)).sum
        / (([⟨1, ['A'], 3, [85, 90, 78], 253/3, 'B'⟩, ⟨2, ['B'], 3, [40, 45, 50], 45, 'F'⟩] :
          List Student).length : ℚ) ∧
      isFirstMax (([⟨1, ['A'], 3, [85, 90, 78], 253/3, 'B'⟩, ⟨2, ['B'], 3, [40, 45, 50], 45, 'F'⟩] :
          List Student).map (fun s => s.average)) t
        ((([⟨1, ['A'], 3, [85, 90, 78], 253/3, 'B'⟩, ⟨2, ['B'], 3, [40, 45, 50], 45, 'F'⟩] :
          List Student).map (fun s => s.average)).getD t 0) ∧
      isFirstMin (([⟨1, ['A'], 3, [85, 90, 78], 253/3, 'B'⟩, ⟨2, ['B'], 3, [40, 45, 50], 45, 'F'⟩] :
          List Student).map (fun s => s.average)) lo
        ((([⟨1, ['A'], 3, [85, 90, 78], 253/3, 'B'⟩, ⟨2, ['B'], 3, [40, 45, 50], 45, 'F'⟩] :
          List Student).map (fun s => s.average)).getD lo 0) :=
  showStats_spec
    [⟨1, ['A'], 3, [85, 90, 78], 253/3, 'B'⟩, ⟨2, ['B'], 3, [40, 45, 50], 45, 'F'⟩]
    (by decide)

/-- `byteCaseCmp` is antisymmetric as a function: swapping the arguments
negates the result. -/
theorem byteCaseCmp_anti : ∀ (a b : List Nat), byteCaseCmp b a = -(byteCaseCmp a b) := by
  intro a
  induction a with
  | nil =>
    intro b
    cases b with
    | nil => simp [byteCaseCmp]
    | cons x xs => simp [byteCaseCmp]
  | cons x xs ih =>
    intro b
    cases b with
    | nil => simp [byteCaseCmp]
    | cons y ys =>
      by_cases hxy : x = y
      · subst hxy
        simp [byteCaseCmp]
        exact ih ys
      · have hyx : y ≠ x := fun h => hxy h.symm
        simp [byteCaseCmp, hxy, hyx]

/-- `byteCaseCmp` is transitive on NUL-free byte strings (the only strings
`strcasecmp` is ever applied to). -/
theorem byteCaseCmp_trans : ∀ (a b c : List Nat), 0 ∉ a → 0 ∉ b →
    byteCaseCmp a b ≤ 0 → byteCaseCmp b c ≤ 0 → byteCaseCmp a c ≤ 0 := by
  intro a
  induction a with
  | nil =>
    intro b c _ _ _ _
    cases c with
    | nil => simp [byteCaseCmp]
    | cons z zs => simp [byteCaseCmp]
  | cons x xs ih =>
    intro b c ha hb h1 h2
    cases b with
    | nil =>
      exfalso
      simp [byteCaseCmp] at h1
      have hx0 : x = 0 := by omega
      exact ha (hx0 ▸ List.mem_cons_self x xs)
    | cons y ys =>
      cases c with
      | nil =>
        exfalso
        simp [byteCaseCmp] at h2
        have hy0 : y = 0 := by omega
        exact hb (hy0 ▸ List.mem_cons_self y ys)
      | cons z zs =>
        by_cases hxy : x = y <;> by_cases hyz : y = z
        · subst hxy; subst hyz
          simp [byteCaseCmp] at h1 h2 ⊢
          exact ih ys zs (fun h => ha (List.mem_cons_of_mem _ h))
            (fun h => hb (List.mem_cons_of_mem _ h)) h1 h2
        · subst hxy
          simp [byteCaseCmp, hyz] at h2 ⊢
          omega
        · subst hyz
          simp [byteCaseCmp, hxy] at h1 ⊢
          omega
        · simp [byteCaseCmp, hxy] at h1
          simp [byteCaseCmp, hyz] at h2
          have hxz : x ≠ z := by omega
          simp [byteCaseCmp, hxz]
          omega

/-- The lowered byte sequence of a name never contains the NUL byte. -/
theorem lowerBytes_no_zero (nm : List Char) : 0 ∉ lowerBytes nm := by
  unfold lowerBytes
  intro hmem
  rw [List.mem_map] at hmem
  obtain ⟨c, hc, hzero⟩ := hmem
  have hcp := List.mem_takeWhile_imp hc
  have hcne : c ≠ Char.ofNat 0 := by simpa using hcp
  have hct : c.toNat ≠ 0 := by
    intro h0
    exact hcne (Char.ext (UInt32.ext h0))
  unfold byteLower at hzero
  split_ifs at hzero <;> omega


/-- `qsort` with a comparator and then with its negation: for any comparator
that negates under argument swap and whose "≤ 0" relation is transitive, on
a store whose records compare pairwise non-equal the second sort returns
exactly the reverse of the first sort. -/
theorem sortPair_reverse (cmp : Student → Student → Int)
    (hanti : ∀ a b, cmp b a = -(cmp a b))
    (htrans : ∀ a b c, cmp a b ≤ 0 → cmp b c ≤ 0 → cmp a c ≤ 0)
    (store : List Student) (hdist : store.Pairwise (fun a b => cmp a b ≠ 0)) :
    sortStudents (fun a b => -(cmp a b)) (sortStudents cmp store)
      = (sortStudents cmp store).reverse := by
  haveI instTot : IsTotal Student (fun x y => cmp x y ≤ 0) := ⟨fun a b => by
    rcases le_or_lt (cmp a b) 0 with h | h
    · exact Or.inl h
    · right
      show cmp b a ≤ 0
      have h2 := hanti a b
      omega⟩
  haveI instTrans : IsTrans Student (fun x y => cmp x y ≤ 0) := ⟨htrans⟩
  haveI instTot2 : IsTotal Student (fun x y => -(cmp x y) ≤ 0) := ⟨fun a b => by
    rcases le_or_lt 0 (cmp a b) with h | h
    · left
      show -(cmp a b) ≤ 0
      omega
    · right
      show -(cmp b a) ≤ 0
      have h2 := hanti a b
      omega⟩
  haveI instTrans2 : IsTrans Student (fun x y => -(cmp x y) ≤ 0) := ⟨fun a b c h1 h2 => by
    have h1b : -(cmp a b) ≤ 0 := h1
    have h2b : -(cmp b c) ≤ 0 := h2
    show -(cmp a c) ≤ 0
    have hba : cmp b a ≤ 0 := by have := hanti a b; omega
    have hcb : cmp c b ≤ 0 := by have := hanti b c; omega
    have hca := htrans c b a hcb hba
    have := hanti a c
    omega⟩
  have hsymm : ∀ {x y : Student}, cmp x y ≠ 0 → cmp y x ≠ 0 := by
    intro x y hxy
    have := hanti x y
    omega
  have hperm1 : List.Perm (sortStudents cmp store) store := List.perm_insertionSort _ store
  have hsort1 : List.Sorted (fun x y : Student => cmp x y ≤ 0) (sortStudents cmp store) :=
    List.sorted_insertionSort _ store
  have hdist1 : (sortStudents cmp store).Pairwise (fun a b => cmp a b ≠ 0) :=
    (List.Perm.pairwise_iff hsymm hperm1).mpr hdist
  have hstrict1 : (sortStudents cmp store).Pairwise (fun a b => cmp a b < 0) :=
    (hsort1.and hdist1).imp (fun h => by omega)
  have hrev : (sortStudents cmp store).reverse.Pairwise (fun a b => 0 < cmp a b) := by
    rw [List.pairwise_reverse]
    refine hstrict1.imp ?_
    intro a b h
    have := hanti a b
    omega
  have hperm2 : List.Perm (sortStudents (fun a b => -(cmp a b)) (sortStudents cmp store))
      (sortStudents cmp store) := List.perm_insertionSort _ _
  have hsort2 : List.Sorted (fun x y : Student => -(cmp x y) ≤ 0)
      (sortStudents (fun a b => -(cmp a b)) (sortStudents cmp store)) :=
    List.sorted_insertionSort _ _
  have hdist2 : (sortStudents (fun a b => -(cmp a b)) (sortStudents cmp store)).Pairwise
      (fun a b => cmp a b ≠ 0) :=
    (List.Perm.pairwise_iff hsymm hperm2).mpr hdist1
  have hstrict2 : (sortStudents (fun a b => -(cmp a b)) (sortStudents cmp store)).Pairwise
      (fun a b => 0 < cmp a b) :=
    (hsort2.and hdist2).imp (fun h => by
      obtain ⟨h1, h2⟩ := h
      have h1b : -(_) ≤ 0 := h1
      omega)
  haveI instAnti : IsAntisymm Student (fun a b => 0 < cmp a b) := ⟨fun a b h1 h2 => by
    exact absurd h2 (by have h3 := hanti a b; have h1b : 0 < cmp a b := h1; omega)⟩
  exact List.eq_of_perm_of_sorted (hperm2.trans (List.reverse_perm _).symm) hstrict2 hrev

/-- Swapping the arguments of `cmpRollAsc` negates it. -/
theorem cmpRollAsc_anti (a b : Student) : cmpRollAsc b a = -(cmpRollAsc a b) := by
  unfold cmpRollAsc
  ring

/-- The "compares ≤ 0" relation of `cmpRollAsc` is transitive. -/
theorem cmpRollAsc_trans (a b c : Student) :
    cmpRollAsc a b ≤ 0 → cmpRollAsc b c ≤ 0 → cmpRollAsc a c ≤ 0 := by
  unfold cmpRollAsc
  omega

/-- Swapping the arguments of `cmpAvgAsc` negates it. -/
theorem cmpAvgAsc_anti (x y : Student) : cmpAvgAsc y x = -(cmpAvgAsc x y) := by
  rcases lt_trichotomy x.average y.average with h | h | h
  · simp [cmpAvgAsc, h, asymm h]
  · simp [cmpAvgAsc, h]
  · simp [cmpAvgAsc, h, asymm h]

/-- `cmpAvgAsc` compares ≤ 0 exactly when the averages compare ≤. -/
theorem cmpAvgAsc_le (x y : Student) : cmpAvgAsc x y ≤ 0 ↔ x.average ≤ y.average := by
  unfold cmpAvgAsc
  split_ifs with h1 h2
  · exact ⟨fun _ => le_of_lt h1, fun _ => by norm_num⟩
  · exact ⟨fun h => absurd h (by norm_num), fun h => absurd h2 (not_lt.mpr h)⟩
  · exact ⟨fun _ => le_of_not_lt h2, fun _ => le_refl _⟩

/-- The "compares ≤ 0" relation of `cmpAvgAsc` is transitive. -/
theorem cmpAvgAsc_trans (a b c : Student) :
    cmpAvgAsc a b ≤ 0 → cmpAvgAsc b c ≤ 0 → cmpAvgAsc a c ≤ 0 := by
  rw [cmpAvgAsc_le, cmpAvgAsc_le, cmpAvgAsc_le]
  exact le_trans

/-- Distinct averages give a nonzero `cmpAvgAsc`. -/
theorem cmpAvgAsc_ne_zero (x y : Student) (h : x.average ≠ y.average) :
    cmpAvgAsc x y ≠ 0 := by
  unfold cmpAvgAsc
  split_ifs with h1 h2
  · norm_num
  · norm_num
  · exact absurd (le_antisymm (le_of_not_lt h2) (le_of_not_lt h1)) h

/-- Swapping the arguments of `cmpNameAsc` negates it. -/
theorem cmpNameAsc_anti (a b : Student) : cmpNameAsc b a = -(cmpNameAsc a b) :=
  byteCaseCmp_anti (lowerBytes a.name) (lowerBytes b.name)

/-- The "compares ≤ 0" relation of `cmpNameAsc` is transitive (names are
NUL-free byte strings as `strcasecmp` reads them). -/
theorem cmpNameAsc_trans (a b c : Student) :
    cmpNameAsc a b ≤ 0 → cmpNameAsc b c ≤ 0 → cmpNameAsc a c ≤ 0 :=
  byteCaseCmp_trans (lowerBytes a.name) (lowerBytes b.name) (lowerBytes c.name)
    (lowerBytes_no_zero a.name) (lowerBytes_no_zero b.name)

/-- **C7.** For stores whose sort keys are pairwise distinct (rolls, or
names under case-insensitive comparison, or averages, depending on the
comparator), sorting by a comparator and then by its descending counterpart
yields the exact reverse of the first result; and each descending
comparator returns the negation of its ascending counterpart on every pair
of records. -/
theorem sort_then_inverse_reverses (store : List Student) :
    ((store.Pairwise fun a b => a.roll ≠ b.roll) →
      sortStudents cmpRollDesc (sortStudents cmpRollAsc store)
        = (sortStudents cmpRollAsc store).reverse) ∧
    ((store.Pairwise fun a b => cmpNameAsc a b ≠ 0) →
      sortStudents cmpNameDesc (sortStudents cmpNameAsc store)
        = (sortStudents cmpNameAsc store).reverse) ∧
    ((store.Pairwise fun a b => a.average ≠ b.average) →
      sortStudents cmpAvgDesc (sortStudents cmpAvgAsc store)
        = (sortStudents cmpAvgAsc store).reverse) ∧
    (∀ a b, cmpRollDesc a b = -(cmpRollAsc a b) ∧ cmpNameDesc a b = -(cmpNameAsc a b) ∧
      cmpAvgDesc a b = -(cmpAvgAsc a b)) := by
  refine ⟨?_, ?_, ?_, fun a b => ⟨rfl, rfl, rfl⟩⟩
  · intro hdist
    exact sortPair_reverse cmpRollAsc cmpRollAsc_anti cmpRollAsc_trans store
      (hdist.imp (fun h => by unfold cmpRollAsc; exact sub_ne_zero.mpr h))
  · intro hdist
    exact sortPair_reverse cmpNameAsc cmpNameAsc_anti cmpNameAsc_trans store hdist
  · intro hdist
    exact sortPair_reverse cmpAvgAsc cmpAvgAsc_anti cmpAvgAsc_trans store
      (hdist.imp (fun h => cmpAvgAsc_ne_zero _ _ h))

/-- Witness for C7: a two-record store with distinct rolls, names and
averages. -/
theorem sort_then_inverse_reverses_witness :
    (sortStudents cmpRollDesc (sortStudents cmpRollAsc
        [⟨1, ['a'], 1, [50], 50, 'D'⟩, ⟨2, ['b'], 1, [60], 60, 'C'⟩])
      = (sortStudents cmpRollAsc
        [⟨1, ['a'], 1, [50], 50, 'D'⟩, ⟨2, ['b'], 1, [60], 60, 'C'⟩]).reverse) ∧
    (sortStudents cmpNameDesc (sortStudents cmpNameAsc
        [⟨1, ['a'], 1, [50], 50, 'D'⟩, ⟨2, ['b'], 1, [60], 60, 'C'⟩])
      = (sortStudents cmpNameAsc
        [⟨1, ['a'], 1, [50], 50, 'D'⟩, ⟨2, ['b'], 1, [60], 60, 'C'⟩]).reverse) ∧
    (sortStudents cmpAvgDesc (sortStudents cmpAvgAsc
        [⟨1, ['a'], 1, [50], 50, 'D'⟩, ⟨2, ['b'], 1, [60], 60, 'C'⟩])
      = (sortStudents cmpAvgAsc
        [⟨1, ['a'], 1, [50], 50, 'D'⟩, ⟨2, ['b'], 1, [60], 60, 'C'⟩]).reverse) ∧
    (∀ a b, cmpRollDesc a b = -(cmpRollAsc a b) ∧ cmpNameDesc a b = -(cmpNameAsc a b) ∧
      cmpAvgDesc a b = -(cmpAvgAsc a b)) :=
  ⟨(sort_then_inverse_reverses
      [⟨1, ['a'], 1, [50], 50, 'D'⟩, ⟨2, ['b'], 1, [60], 60, 'C'⟩]).1 (by decide),
    (sort_then_inverse_reverses
      [⟨1, ['a'], 1, [50], 50, 'D'⟩, ⟨2, ['b'], 1, [60], 60, 'C'⟩]).2.1 (by decide),
    (sort_then_inverse_reverses
      [⟨1, ['a'], 1, [50], 50, 'D'⟩, ⟨2, ['b'], 1, [60], 60, 'C'⟩]).2.2.1 (by decide),
    (sort_then_inverse_reverses
      [⟨1, ['a'], 1, [50], 50, 'D'⟩, ⟨2, ['b'], 1, [60], 60, 'C'⟩]).2.2.2⟩

/-- The digit characters emitted by the decimal renderer have the expected
code. -/
theorem digitChar_toNat (k : Nat) (hk : k < 10) : (Char.ofNat (48 + k)).toNat = 48 + k := by
  interval_cases k <;> decide

/-- The digit characters emitted by the decimal renderer are digits. -/
theorem digitChar_isDigit (k : Nat) (hk : k < 10) : (Char.ofNat (48 + k)).isDigit = true := by
  interval_cases k <;> decide

/-- Appending one digit multiplies the parsed value by ten. -/
theorem parseDigits_append_digit (cs : List Char) (c : Char) :
    parseDigits (cs ++ [c]) = parseDigits cs * 10 + (c.toNat - 48) := by
  unfold parseDigits
  rw [List.foldl_append]
  rfl

/-- Parsing inverts the fueled digit renderer. -/
theorem parseDigits_natDigitsAux : ∀ (fuel n : Nat), n ≤ fuel →
    parseDigits (natDigitsAux fuel n) = n := by
  intro fuel
  induction fuel with
  | zero =>
    intro n hn
    interval_cases n
    rfl
  | succ f ih =>
    intro n hn
    match n with
    | 0 => rfl
    | m + 1 =>
      show parseDigits (natDigitsAux f ((m + 1) / 10) ++ [Char.ofNat (48 + (m + 1) % 10)])
        = m + 1
      rw [parseDigits_append_digit, ih ((m + 1) / 10) (by omega),
        digitChar_toNat _ (Nat.mod_lt _ (by norm_num))]
      omega

/-- Every character the fueled digit renderer emits is a digit. -/
theorem natDigitsAux_digits : ∀ (fuel n : Nat), ∀ c ∈ natDigitsAux fuel n,
    c.isDigit = true := by
  intro fuel
  induction fuel with
  | zero =>
    intro n c hc
    simp [natDigitsAux] at hc
  | succ f ih =>
    intro n c hc
    match n with
    | 0 => simp [natDigitsAux] at hc
    | m + 1 =>
      rw [show natDigitsAux (f + 1) (m + 1)
          = natDigitsAux f ((m + 1) / 10) ++ [Char.ofNat (48 + (m + 1) % 10)] from rfl] at hc
      rcases List.mem_append.mp hc with h | h
      · exact ih _ c h
      · have hc2 : c = Char.ofNat (48 + (m + 1) % 10) := by simpa using h
        rw [hc2]
        exact digitChar_isDigit _ (Nat.mod_lt _ (by norm_num))

/-- Every character of a rendered natural number is a digit. -/
theorem natDecimal_digits (n : Nat) : ∀ c ∈ natDecimal n, c.isDigit = true := by
  unfold natDecimal
  split_ifs with h
  · intro c hc
    have hc2 : c = '0' := by simpa using hc
    rw [hc2]
    decide
  · exact natDigitsAux_digits n n

/-- Parsing inverts the decimal rendering of a natural number. -/
theorem parseDigits_natDecimal (n : Nat) : parseDigits (natDecimal n) = n := by
  unfold natDecimal
  split_ifs with h
  · subst h
    decide
  · exact parseDigits_natDigitsAux n n le_rfl

/-- The decimal rendering of a natural number is never empty. -/
theorem natDecimal_ne_nil (n : Nat) : natDecimal n ≠ [] := by
  unfold natDecimal
  split_ifs with h
  · simp
  · rcases Nat.exists_eq_succ_of_ne_zero h with ⟨m, rfl⟩
    rw [show natDigitsAux (m + 1) (m + 1)
      = natDigitsAux m ((m + 1) / 10) ++ [Char.ofNat (48 + (m + 1) % 10)] from rfl]
    simp

/-- A digit character differs from any non-digit character. -/
theorem isDigit_ne (c : Char) (h : c.isDigit = true) (d : Char) (hd : d.isDigit = false) :
    c ≠ d := by
  intro he
  rw [he, hd] at h
  cases h

/-- Digit characters are not `isspace` characters. -/
theorem isDigit_not_space (c : Char) (h : c.isDigit = true) : isSpaceByte c = false := by
  have h1 : c ≠ ' ' := isDigit_ne c h ' ' (by decide)
  have h2 : c ≠ '\t' := isDigit_ne c h '\t' (by decide)
  have h3 : c ≠ '\n' := isDigit_ne c h '\n' (by decide)
  have h4 : c ≠ Char.ofNat 11 := isDigit_ne c h (Char.ofNat 11) (by decide)
  have h5 : c ≠ Char.ofNat 12 := isDigit_ne c h (Char.ofNat 12) (by decide)
  have h6 : c ≠ '\r' := isDigit_ne c h '\r' (by decide)
  simp [isSpaceByte, h1, h2, h3, h4, h5, h6]

/-- `takeWhile` keeps a list all of whose elements satisfy the predicate. -/
theorem takeWhile_all {α : Type} (p : α → Bool) :
    ∀ (l : List α), (∀ x ∈ l, p x = true) → l.takeWhile p = l := by
  intro l
  induction l with
  | nil => intro _; rfl
  | cons x xs ih =>
    intro h
    rw [List.takeWhile_cons, if_pos (h x (List.mem_cons_self x xs))]
    rw [ih (fun y hy => h y (List.mem_cons_of_mem x hy))]

/-- `dropWhile` stops immediately at a head that fails the predicate. -/
theorem dropWhile_head_false {α : Type} (p : α → Bool) (x : α) (xs : List α)
    (h : p x = false) : (x :: xs).dropWhile p = x :: xs := by
  rw [List.dropWhile_cons]
  simp [h]

/-- `takeWhile` over `xs ++ y :: ys` with `xs` all-true and `y` false is `xs`. -/
theorem takeWhile_append_stop {α : Type} (p : α → Bool) :
    ∀ (xs : List α) (y : α) (ys : List α), (∀ x ∈ xs, p x = true) → p y = false →
      (xs ++ y :: ys).takeWhile p = xs := by
  intro xs
  induction xs with
  | nil =>
    intro y ys _ hy
    rw [List.nil_append, List.takeWhile_cons, if_neg (by simp [hy])]
  | cons x xs ih =>
    intro y ys hall hy
    rw [List.cons_append, List.takeWhile_cons,
      if_pos (hall x (List.mem_cons_self x xs)),
      ih y ys (fun z hz => hall z (List.mem_cons_of_mem x hz)) hy]

/-- `dropWhile` over `xs ++ y :: ys` with `xs` all-true and `y` false is
`y :: ys`. -/
theorem dropWhile_append_stop {α : Type} (p : α → Bool) :
    ∀ (xs : List α) (y : α) (ys : List α), (∀ x ∈ xs, p x = true) → p y = false →
      (xs ++ y :: ys).dropWhile p = y :: ys := by
  intro xs
  induction xs with
  | nil =>
    intro y ys _ hy
    rw [List.nil_append]
    exact dropWhile_head_false p y ys hy
  | cons x xs ih =>
    intro y ys hall hy
    rw [List.cons_append, List.dropWhile_cons]
    simp only [hall x (List.mem_cons_self x xs), if_true]
    exact ih y ys (fun z hz => hall z (List.mem_cons_of_mem x hz)) hy

/-- `atoi` inverts the decimal rendering of a natural number. -/
theorem atoiChars_natDecimal (m : Nat) : atoiChars (natDecimal m) = (m : Int) := by
  obtain ⟨c, cs, hcons⟩ := List.exists_cons_of_ne_nil (natDecimal_ne_nil m)
  have hdigits := natDecimal_digits m
  have hcdig : c.isDigit = true := hdigits c (by rw [hcons]; exact List.mem_cons_self _ _)
  have hdw : (natDecimal m).dropWhile isSpaceByte = natDecimal m := by
    rw [hcons]
    exact dropWhile_head_false _ _ _ (isDigit_not_space c hcdig)
  have hc1 : c ≠ '-' := isDigit_ne c hcdig '-' (by decide)
  have hc2 : c ≠ '+' := isDigit_ne c hcdig '+' (by decide)
  unfold atoiChars
  rw [hdw, hcons]
  show (if c = '-' then -(parseDigits (cs.takeWhile Char.isDigit) : Int)
    else if c = '+' then (parseDigits (cs.takeWhile Char.isDigit) : Int)
    else (parseDigits ((c :: cs).takeWhile Char.isDigit) : Int)) = (m : Int)
  rw [if_neg hc1, if_neg hc2, ← hcons, takeWhile_all _ _ hdigits, parseDigits_natDecimal]

/-- `atoi` inverts the `%d` rendering of an integer. -/
theorem atoiChars_intDecimal (n : Int) : atoiChars (intDecimal n) = n := by
  unfold intDecimal
  split_ifs with h
  · rw [show ((['-'] : List Char) ++ natDecimal n.natAbs) = '-' :: natDecimal n.natAbs from rfl]
    unfold atoiChars
    rw [dropWhile_head_false _ _ _ (by decide : isSpaceByte '-' = false)]
    show -(parseDigits ((natDecimal n.natAbs).takeWhile Char.isDigit) : Int) = n
    rw [takeWhile_all _ _ (natDecimal_digits _), parseDigits_natDecimal]
    omega
  · rw [List.nil_append, atoiChars_natDecimal]
    omega

/-- The two-digit fractional block: value, width and digit-ness, checked for
all hundred residues. -/
theorem pad2_facts : ∀ k, k < 100 →
    parseDigits (pad2 k) = k ∧ (pad2 k).length = 2 ∧ ∀ c ∈ pad2 k, c.isDigit = true := by
  decide

/-- A leading minus is consumed with sign factor -1. -/
theorem signSplit_neg (r : List Char) : signSplit ('-' :: r) = (-1, r) := by
  simp [signSplit]

/-- Any other head leaves the input alone with sign factor 1. -/
theorem signSplit_other (c : Char) (r : List Char) (h1 : c ≠ '-') (h2 : c ≠ '+') :
    signSplit (c :: r) = (1, c :: r) := by
  simp [signSplit, h1, h2]

/-- A leading dot yields the following digit run. -/
theorem fracPart_dot (r : List Char) : fracPart ('.' :: r) = r.takeWhile Char.isDigit := by
  simp [fracPart]

/-- Unfolding equation for `atofQ`. -/
theorem atofQ_eq (cs : List Char) : atofQ cs
    = (signSplit (cs.dropWhile isSpaceByte)).1 *
      ((parseDigits ((signSplit (cs.dropWhile isSpaceByte)).2.takeWhile Char.isDigit) : ℚ)
        + (parseDigits (fracPart ((signSplit (cs.dropWhile isSpaceByte)).2.dropWhile
            Char.isDigit)) : ℚ)
          / (10 : ℚ) ^ (fracPart ((signSplit (cs.dropWhile isSpaceByte)).2.dropWhile
            Char.isDigit)).length) := rfl

/-- `atof` applied to the `%.2f` rendering of a rational recovers exactly
the rational rounded to two decimal places. -/
theorem atofQ_format2dec (q : ℚ) : atofQ (format2dec q) = round2 q := by
  have hk : (round (q * 100)).natAbs % 100 < 100 := Nat.mod_lt _ (by norm_num)
  obtain ⟨hp1, hp2, hp3⟩ := pad2_facts ((round (q * 100)).natAbs % 100) hk
  have hipd := natDecimal_digits ((round (q * 100)).natAbs / 100)
  obtain ⟨c, cs, hcons⟩ :=
    List.exists_cons_of_ne_nil (natDecimal_ne_nil ((round (q * 100)).natAbs / 100))
  have hcdig : c.isDigit = true := hipd c (by rw [hcons]; exact List.mem_cons_self _ _)
  have hc1 : c ≠ '-' := isDigit_ne c hcdig '-' (by decide)
  have hc2 : c ≠ '+' := isDigit_ne c hcdig '+' (by decide)
  have hdotdig : ('.').isDigit = false := by decide
  have htw : (natDecimal ((round (q * 100)).natAbs / 100)
        ++ '.' :: pad2 ((round (q * 100)).natAbs % 100)).takeWhile Char.isDigit
      = natDecimal ((round (q * 100)).natAbs / 100) :=
    takeWhile_append_stop _ _ _ _ hipd hdotdig
  have hdwd : (natDecimal ((round (q * 100)).natAbs / 100)
        ++ '.' :: pad2 ((round (q * 100)).natAbs % 100)).dropWhile Char.isDigit
      = '.' :: pad2 ((round (q * 100)).natAbs % 100) :=
    dropWhile_append_stop _ _ _ _ hipd hdotdig
  have h1 : (100 : ℚ) * (((round (q * 100)).natAbs / 100 : Nat) : ℚ)
      + (((round (q * 100)).natAbs % 100 : Nat) : ℚ)
      = (((round (q * 100)).natAbs : Nat) : ℚ) := by
    exact_mod_cast Nat.div_add_mod (round (q * 100)).natAbs 100
  have hpow : (10 : ℚ) ^ 2 = 100 := by norm_num
  by_cases hneg : round (q * 100) < 0
  · have hfmt : format2dec q = '-' :: (natDecimal ((round (q * 100)).natAbs / 100)
        ++ '.' :: pad2 ((round (q * 100)).natAbs % 100)) := by
      show (if round (q * 100) < 0 then ['-'] else [])
          ++ natDecimal ((round (q * 100)).natAbs / 100)
          ++ '.' :: pad2 ((round (q * 100)).natAbs % 100) = _
      rw [if_pos hneg]
      rfl
    rw [hfmt, atofQ_eq, dropWhile_head_false _ _ _ (by decide : isSpaceByte '-' = false),
      signSplit_neg]
    show (-1 : ℚ) * ((parseDigits ((natDecimal ((round (q * 100)).natAbs / 100)
        ++ '.' :: pad2 ((round (q * 100)).natAbs % 100)).takeWhile Char.isDigit) : ℚ)
      + (parseDigits (fracPart ((natDecimal ((round (q * 100)).natAbs / 100)
          ++ '.' :: pad2 ((round (q * 100)).natAbs % 100)).dropWhile Char.isDigit)) : ℚ)
        / (10 : ℚ) ^ (fracPart ((natDecimal ((round (q * 100)).natAbs / 100)
          ++ '.' :: pad2 ((round (q * 100)).natAbs % 100)).dropWhile
            Char.isDigit)).length) = round2 q
    rw [htw, hdwd, fracPart_dot, takeWhile_all _ _ hp3, parseDigits_natDecimal, hp1, hp2,
      hpow]
    show _ = ((round (q * 100) : Int) : ℚ) / 100
    have h2 : round (q * 100) = -(((round (q * 100)).natAbs : Int)) := by omega
    have h3 : ((round (q * 100) : Int) : ℚ) = -(((round (q * 100)).natAbs : ℚ)) := by
      conv_lhs => rw [h2]
      rw [Int.cast_neg, Int.cast_natCast]
    rw [h3]
    field_simp
    linarith [h1]
  · have hfmt : format2dec q = natDecimal ((round (q * 100)).natAbs / 100)
        ++ '.' :: pad2 ((round (q * 100)).natAbs % 100) := by
      show (if round (q * 100) < 0 then ['-'] else [])
          ++ natDecimal ((round (q * 100)).natAbs / 100)
          ++ '.' :: pad2 ((round (q * 100)).natAbs % 100) = _
      rw [if_neg hneg]
      rfl
    rw [hfmt, atofQ_eq, hcons, List.cons_append,
      dropWhile_head_false _ _ _ (isDigit_not_space c hcdig),
      signSplit_other c _ hc1 hc2]
    show (1 : ℚ) * ((parseDigits ((c :: (cs
        ++ '.' :: pad2 ((round (q * 100)).natAbs % 100))).takeWhile Char.isDigit) : ℚ)
      + (parseDigits (fracPart ((c :: (cs
          ++ '.' :: pad2 ((round (q * 100)).natAbs % 100))).dropWhile Char.isDigit)) : ℚ)
        / (10 : ℚ) ^ (fracPart ((c :: (cs
          ++ '.' :: pad2 ((round (q * 100)).natAbs % 100))).dropWhile
            Char.isDigit)).length) = round2 q
    rw [← List.cons_append, ← hcons, htw, hdwd, fracPart_dot, takeWhile_all _ _ hp3,
      parseDigits_natDecimal, hp1, hp2, hpow]
    show _ = ((round (q * 100) : Int) : ℚ) / 100
    have h2 : round (q * 100) = (((round (q * 100)).natAbs : Int)) := by omega
    have h3 : ((round (q * 100) : Int) : ℚ) = (((round (q * 100)).natAbs : ℚ)) := by
      conv_lhs => rw [h2]
      rw [Int.cast_natCast]
    rw [h3]
    field_simp
    linarith [h1]

/-- Characters of a joined list are separators or characters of a part. -/
theorem mem_joinSep (sep : Char) : ∀ (ps : List (List Char)) (c : Char),
    c ∈ joinSep sep ps → c = sep ∨ ∃ p ∈ ps, c ∈ p := by
  intro ps
  induction ps with
  | nil => intro c hc; simp [joinSep] at hc
  | cons p ps ih =>
    intro c hc
    cases ps with
    | nil =>
      right
      exact ⟨p, List.mem_cons_self _ _, hc⟩
    | cons q ps2 =>
      rw [show joinSep sep (p :: q :: ps2) = p ++ sep :: joinSep sep (q :: ps2) from rfl] at hc
      rcases List.mem_append.mp hc with h | h
      · right; exact ⟨p, List.mem_cons_self _ _, h⟩
      · rcases List.mem_cons.mp h with rfl | h2
        · left; rfl
        · rcases ih c h2 with h3 | ⟨r, hr, hcr⟩
          · left; exact h3
          · right; exact ⟨r, List.mem_cons_of_mem _ hr, hcr⟩

/-- Length bound for the joined marks list. -/
theorem joinSep_length_le (sep : Char) : ∀ (ps : List (List Char)),
    (∀ p ∈ ps, p.length ≤ 3) → (joinSep sep ps).length ≤ 4 * ps.length := by
  intro ps
  induction ps with
  | nil => intro _; simp [joinSep]
  | cons p ps ih =>
    intro hall
    cases ps with
    | nil =>
      show p.length ≤ 4 * 1
      have := hall p (List.mem_cons_self _ _)
      omega
    | cons q ps2 =>
      show (p ++ sep :: joinSep sep (q :: ps2)).length ≤ 4 * (q :: ps2).length + 4
      have h1 := hall p (List.mem_cons_self _ _)
      have h2 := ih (fun r hr => hall r (List.mem_cons_of_mem _ hr))
      simp only [List.length_append, List.length_cons] at *
      omega

/-- A mark value (at most 100) renders in at most three characters. -/
theorem natDecimal_length_le_100 : ∀ n, n ≤ 100 → (natDecimal n).length ≤ 3 := by decide

/-- An in-range mark renders in at most three characters. -/
theorem intDecimal_length_le (m : Int) (h0 : 0 ≤ m) (h100 : m ≤ 100) :
    (intDecimal m).length ≤ 3 := by
  unfold intDecimal
  rw [if_neg (not_lt.mpr h0), List.nil_append]
  exact natDecimal_length_le_100 m.natAbs (by omega)

/-- `%d` output consists of digits and at most a minus sign. -/
theorem intDecimal_chars (n : Int) : ∀ c ∈ intDecimal n, c.isDigit = true ∨ c = '-' := by
  unfold intDecimal
  split_ifs with h
  · intro c hc
    rcases List.mem_append.mp hc with h2 | h2
    · right; simpa using h2
    · left; exact natDecimal_digits _ c h2
  · intro c hc
    rw [List.nil_append] at hc
    left
    exact natDecimal_digits _ c hc

/-- `%d` output is never empty. -/
theorem intDecimal_ne_nil (n : Int) : intDecimal n ≠ [] := by
  unfold intDecimal
  exact List.append_ne_nil_of_right_ne_nil _ (natDecimal_ne_nil n.natAbs)

/-- `%.2f` output consists of digits, a minus sign and a dot. -/
theorem format2dec_chars (q : ℚ) : ∀ c ∈ format2dec q,
    c.isDigit = true ∨ c = '-' ∨ c = '.' := by
  show ∀ c ∈ (if round (q * 100) < 0 then ['-'] else [])
      ++ natDecimal ((round (q * 100)).natAbs / 100)
      ++ '.' :: pad2 ((round (q * 100)).natAbs % 100), _
  intro c hc
  rcases List.mem_append.mp hc with h | h
  · rcases List.mem_append.mp h with h2 | h2
    · split_ifs at h2
      · right; left; simpa using h2
      · simp at h2
    · left; exact natDecimal_digits _ c h2
  · rcases List.mem_cons.mp h with rfl | h3
    · right; right; rfl
    · left
      exact (pad2_facts _ (Nat.mod_lt _ (by norm_num))).2.2 c h3

/-- `%.2f` output is never empty. -/
theorem format2dec_ne_nil (q : ℚ) : format2dec q ≠ [] := by
  show (if round (q * 100) < 0 then ['-'] else [])
      ++ natDecimal ((round (q * 100)).natAbs / 100)
      ++ '.' :: pad2 ((round (q * 100)).natAbs % 100) ≠ []
  exact List.append_ne_nil_of_right_ne_nil _ (by simp)

/-- Every character of the new `strtok` saved string was a character of the
old one: a call only ever walks the saved pointer forward. -/
theorem strtokStep_state_mem (d : Char) (s : List Char) :
    ∀ c ∈ (strtokStep d s).2, c ∈ s := by
  intro c hc
  unfold strtokStep at hc
  rcases hd : s.dropWhile (fun c => c == d) with _ | ⟨a, rest⟩
  · rw [hd] at hc
    simp at hc
  · rw [hd] at hc
    simp only [] at hc
    have h1 : c ∈ (a :: rest).dropWhile (fun c => c != d) :=
      List.mem_of_mem_tail hc
    have h2 : c ∈ a :: rest := (List.dropWhile_sublist _).subset h1
    rw [← hd] at h2
    exact (List.dropWhile_sublist _).subset h2

/-- A token returned by `strtok` never contains the delimiter. -/
theorem strtokStep_token_no_delim (d : Char) (s t : List Char)
    (h : (strtokStep d s).1 = some t) : ∀ c ∈ t, c ≠ d := by
  intro c hc
  unfold strtokStep at h
  rcases hd : s.dropWhile (fun c => c == d) with _ | ⟨a, rest⟩
  · rw [hd] at h
    simp at h
  · rw [hd] at h
    simp only [Option.some.injEq] at h
    rw [← h] at hc
    have := List.mem_takeWhile_imp hc
    simpa using this

/-- When the saved string is delimiter-free, a `strtok` call consumes it
entirely: the new saved string is empty. -/
theorem strtokStep_no_delim_exhausts (d : Char) (s : List Char)
    (hs : ∀ c ∈ s, c ≠ d) : (strtokStep d s).2 = [] := by
  have hdrop : s.dropWhile (fun c => c == d) = s := by
    induction s with
    | nil => rfl
    | cons a rest ih =>
      rw [List.dropWhile_cons]
      have ha : (a == d) = false := by
        simpa using hs a (List.mem_cons_self a rest)
      rw [ha]
      simp
  unfold strtokStep
  rw [hdrop]
  cases s with
  | nil => rfl
  | cons a rest =>
    simp only []
    have hall : (a :: rest).dropWhile (fun c => c != d) = [] := by
      rw [List.dropWhile_eq_nil_iff]
      intro x hx
      simpa using hs x hx
    rw [hall]
    rfl

/-- The marks loop only ever walks the shared `strtok` state forward:
every character of the final state was a character of the initial one. -/
theorem marksLoop_state_mem : ∀ (r : Nat) (mt : Option (List Char))
    (st : List Char) (acc : List Int) (c : Char),
    c ∈ (marksLoop r (mt, st) acc).2.2 → c ∈ st := by
  intro r
  induction r with
  | zero =>
    intro mt st acc c h
    cases mt with
    | none => simpa [marksLoop] using h
    | some t => simpa [marksLoop] using h
  | succ r ih =>
    intro mt st acc c h
    cases mt with
    | none => simpa [marksLoop] using h
    | some t =>
      rw [show marksLoop (r + 1) (some t, st) acc
          = marksLoop r (strtokStep ';' st) (acc ++ [atoiChars t]) from rfl] at h
      rcases hsp : strtokStep ';' st with ⟨mt2, st2⟩
      rw [hsp] at h
      have h2 : c ∈ st2 := ih mt2 st2 _ c h
      have h3 : c ∈ (strtokStep ';' st).2 := by rw [hsp]; exact h2
      exact strtokStep_state_mem ';' st c h3

/-- The grade read on an exhausted `strtok` state returns `NULL` and the
iteration hits `continue`. -/
theorem parseGrade_exhausted (rollTok nameTok : List Char) (cntN : Nat)
    (marks : List Int) (avgTok : List Char) :
    parseGrade rollTok nameTok cntN marks avgTok [] = none := rfl

/-- With a comma-free `strtok` state — as left behind by the marks loop,
whose state lies inside the copy of the line's comma-free marks field — the
average and grade reads cannot both succeed: the average read either
returns `NULL` or consumes the whole remainder, after which the grade read
returns `NULL`.  Either way the iteration ends in `continue`. -/
theorem parseAfterMarks_none (rollTok nameTok : List Char) (cntN : Nat)
    (marks : List Int) (st : List Char) (h : ∀ c ∈ st, c ≠ ',') :
    parseAfterMarks rollTok nameTok cntN marks st = none := by
  unfold parseAfterMarks
  rcases h1 : strtokStep ',' st with ⟨t1, st6⟩
  cases t1 with
  | none => rfl
  | some avgTok =>
    have hst6 : st6 = [] := by
      have h2 := strtokStep_no_delim_exhausts ',' st h
      rw [h1] at h2
      exact h2
    subst hst6
    exact parseGrade_exhausted rollTok nameTok cntN marks avgTok

/-- From the subjectCount check on, every branch of a parse-loop iteration
reaches a `continue`: the marks token read by comma is comma-free, hence so
is the `strtok` state the marks loop leaves behind inside the `tmp` copy,
and the average/grade reads then fail. -/
theorem parseFrom3_none (rollTok nameTok cntTok st3 : List Char) :
    parseFrom3 rollTok nameTok cntTok st3 = none := by
  unfold parseFrom3
  by_cases hr : atoiChars cntTok < 1 ∨ atoiChars cntTok > (MAX_SUBJECTS : Int)
  · rw [if_pos hr]
  · rw [if_neg hr]
    rcases h4 : strtokStep ',' st3 with ⟨t4, st4⟩
    cases t4 with
    | none => rfl
    | some marksTok =>
      have hmt : ∀ c ∈ marksTok, c ≠ ',' :=
        strtokStep_token_no_delim ',' st3 marksTok (by rw [h4])
      have htmp : ∀ c ∈ marksTok.take 511, c ≠ ',' :=
        fun c hc => hmt c (List.take_subset 511 marksTok hc)
      rcases h5 : strtokStep ';' (marksTok.take 511) with ⟨m0, st0⟩
      have hst0 : ∀ c ∈ st0, c ≠ ',' := by
        intro c hc
        apply htmp
        apply strtokStep_state_mem ';' (marksTok.take 511) c
        rw [h5]
        exact hc
      rcases hres : marksLoop (atoiChars cntTok).toNat (m0, st0) []
        with ⟨marks, rem, st5⟩
      have hst5 : ∀ c ∈ st5, c ≠ ',' := by
        intro c hc
        refine hst0 c (marksLoop_state_mem (atoiChars cntTok).toNat m0 st0 [] c ?_)
        rw [hres]
        exact hc
      show (if (marksLoop (atoiChars cntTok).toNat
            (strtokStep ';' (marksTok.take 511)) []).2.1 ≠ 0 then none
          else parseAfterMarks rollTok nameTok (atoiChars cntTok).toNat
            (marksLoop (atoiChars cntTok).toNat
              (strtokStep ';' (marksTok.take 511)) []).1
            (marksLoop (atoiChars cntTok).toNat
              (strtokStep ';' (marksTok.take 511)) []).2.2) = none
      rw [h5, hres]
      show (if rem ≠ 0 then none
        else parseAfterMarks rollTok nameTok (atoiChars cntTok).toNat
          marks st5) = none
      by_cases hrem : rem ≠ 0
      · rw [if_pos hrem]
      · rw [if_neg hrem]
        exact parseAfterMarks_none rollTok nameTok _ marks st5 hst5

/-- No subjectCount token, or the tail fails: either way `continue`. -/
theorem parseFrom2_none (rollTok nameTok st2 : List Char) :
    parseFrom2 rollTok nameTok st2 = none := by
  unfold parseFrom2
  rcases h3 : strtokStep ',' st2 with ⟨t3, st3⟩
  cases t3 with
  | none => rfl
  | some cntTok => exact parseFrom3_none rollTok nameTok cntTok st3

/-- No name token, or the tail fails: either way `continue`. -/
theorem parseFrom1_none (rollTok st1 : List Char) :
    parseFrom1 rollTok st1 = none := by
  unfold parseFrom1
  rcases h2 : strtokStep ',' st1 with ⟨t2, st2⟩
  cases t2 with
  | none => rfl
  | some nameTok => exact parseFrom2_none rollTok nameTok st2

/-- Every line of every data file is skipped: each parse-loop iteration
ends in one of its `continue`s, because the `strtok(tmp, ";")` re-seeding
at line 213 leaves the shared saved pointer inside the comma-free marks
buffer, so the average read (line 222) or the grade read (line 227)
returns `NULL`. -/
theorem parseLine_none (line : List Char) : parseLine line = none := by
  unfold parseLine
  rcases h1 : strtokStep ',' (stripEol line) with ⟨t1, st1⟩
  cases t1 with
  | none => rfl
  | some rollTok => exact parseFrom1_none rollTok st1

/-- The read loop accepts nothing, so it returns its accumulator. -/
theorem loadLoop_skips_all : ∀ (ls : List (List Char)) (acc : List Student),
    loadLoop ls acc = acc := by
  intro ls
  induction ls with
  | nil => intro acc; rfl
  | cons l ls ih =>
    intro acc
    by_cases hcap : acc.length < MAX_STUDENTS
    · simp [loadLoop, hcap, parseLine_none, ih]
    · simp [loadLoop, hcap]

/-- `loadAll` yields the empty store on every file content. -/
theorem loadAll_empty (lines : List (List Char)) : loadAll lines = [] := by
  unfold loadAll
  exact loadLoop_skips_all _ _

/-- **C5 (code bug).** The claim's accept/skip characterization is not what
the program does: the load skips every line, well-formed or not, and the
resulting store is always empty.  The `strtok(tmp, ";")` call at line 213
re-seeds the single shared `strtok` saved pointer onto the stack copy
`tmp` of the line's marks field; the average and grade reads at lines 222
and 227 then tokenize the comma-free remainder of `tmp` instead of the
rest of the line, so at least one of them returns `NULL` and the iteration
hits `continue`. -/
theorem load_skips_every_line (line : List Char) (lines : List (List Char)) :
    parseLine line = none ∧ loadAll lines = [] :=
  ⟨parseLine_none line, loadAll_empty lines⟩

/-- **C2 (code bug).** The save/load round trip of a non-empty store is
never field-for-field identity — it loses every record: `saveAll` writes
one CSV line per record, but `loadAll` skips every line of every file (the
shared `strtok` pointer is clobbered by the marks tokenization at line
213), so reloading a saved store always yields the empty store. -/
theorem save_load_loses_everything (store : List Student) (hne : store ≠ []) :
    loadAll (saveAll store) = [] ∧ loadAll (saveAll store) ≠ store := by
  refine ⟨loadAll_empty _, ?_⟩
  rw [loadAll_empty]
  exact fun h => hne h.symm

/-- Witness for C2: the singleton store holding the §8 Alice record is
saved and then reloaded as the empty store. -/
theorem save_load_loses_everything_witness :
    loadAll (saveAll [⟨1, ("Alice").data, 3, [85, 90, 78], 253/3, 'B'⟩]) = [] ∧
      loadAll (saveAll [⟨1, ("Alice").data, 3, [85, 90, 78], 253/3, 'B'⟩])
        ≠ [⟨1, ("Alice").data, 3, [85, 90, 78], 253/3, 'B'⟩] :=
  save_load_loses_everything [⟨1, ("Alice").data, 3, [85, 90, 78], 253/3, 'B'⟩]
    (by decide)

/-- The name `addStudent` and `updateStudent` store — sanitized and
truncated from a non-empty single-line byte string — satisfies every name
condition of `WF`. -/
theorem sanitize_name_fields (nm : List Char) (hne : nm ≠ [])
    (hnl : '\n' ∉ nm) (hnul : Char.ofNat 0 ∉ nm) (hbyte : ∀ c ∈ nm, c.toNat < 256) :
    (sanitizeName nm).take (MAX_NAME - 1) ≠ [] ∧
    ((sanitizeName nm).take (MAX_NAME - 1)).length ≤ MAX_NAME - 1 ∧
    ',' ∉ (sanitizeName nm).take (MAX_NAME - 1) ∧
    '\n' ∉ (sanitizeName nm).take (MAX_NAME - 1) ∧
    Char.ofNat 0 ∉ (sanitizeName nm).take (MAX_NAME - 1) ∧
    (∀ c ∈ (sanitizeName nm).take (MAX_NAME - 1), c.toNat < 256) := by
  have hmem : ∀ c ∈ (sanitizeName nm).take (MAX_NAME - 1),
      ∃ x ∈ nm, c = if x = ',' then ' ' else x := by
    intro c hc
    have hc2 := List.mem_of_mem_take hc
    rw [sanitizeName, List.mem_map] at hc2
    obtain ⟨x, hx, hcx⟩ := hc2
    exact ⟨x, hx, hcx.symm⟩
  refine ⟨?_, ?_, ?_, ?_, ?_, ?_⟩
  · intro h
    rw [List.take_eq_nil_iff] at h
    rcases h with h | h
    · simp [MAX_NAME] at h
    · rw [sanitizeName, List.map_eq_nil_iff] at h
      exact hne h
  · rw [List.length_take]
    omega
  · intro hc
    obtain ⟨x, hx, hcx⟩ := hmem ',' hc
    split_ifs at hcx with h
    · exact absurd hcx (by decide)
    · exact h hcx.symm
  · intro hc
    obtain ⟨x, hx, hcx⟩ := hmem '\n' hc
    split_ifs at hcx with h
    · exact absurd hcx (by decide)
    · rw [← hcx] at hx
      exact hnl hx
  · intro hc
    obtain ⟨x, hx, hcx⟩ := hmem (Char.ofNat 0) hc
    split_ifs at hcx with h
    · exact absurd hcx (by decide)
    · rw [← hcx] at hx
      exact hnul hx
  · intro c hc
    obtain ⟨x, hx, hcx⟩ := hmem c hc
    split_ifs at hcx with h
    · rw [hcx]; decide
    · rw [hcx]; exact hbyte x hx

/-- A record appended by `addStudent` under the UI contract is
well-formed. -/
theorem addStudent_WF (st : List Student) (nm : List Char) (marks : List Int)
    (s : Student) (hadd : (addStudent st nm marks).2 = some s)
    (hnm : '\n' ∉ nm ∧ Char.ofNat 0 ∉ nm ∧ ∀ c ∈ nm, c.toNat < 256)
    (hcnt : 1 ≤ marks.length ∧ marks.length ≤ MAX_SUBJECTS)
    (hmarks : ∀ m ∈ marks, 0 ≤ m ∧ m ≤ 100) : WF s := by
  unfold addStudent at hadd
  by_cases hcap : st.length ≥ MAX_STUDENTS
  · rw [if_pos hcap] at hadd; cases hadd
  · rw [if_neg hcap] at hadd
    by_cases hnm0 : nm = []
    · rw [if_pos hnm0] at hadd; cases hadd
    · rw [if_neg hnm0] at hadd
      have hs := (Option.some.inj hadd).symm
      obtain ⟨hf1, hf2, hf3, hf4, hf5, hf6⟩ :=
        sanitize_name_fields nm hnm0 hnm.1 hnm.2.1 hnm.2.2
      subst hs
      exact ⟨hf1, hf2, hf3, hf4, hf5, hf6, hcnt.1, hcnt.2, rfl, hmarks,
        calculateGrade_mem _⟩

/-- Writing back the value already stored at an index is the identity. -/
theorem set_getElem_self : ∀ {α : Type} (l : List α) (i : Nat) (a : α),
    l[i]? = some a → l.set i a = l := by
  intro α l
  induction l with
  | nil => intro i a h; cases h
  | cons x xs ih =>
    intro i a h
    cases i with
    | zero =>
      have : x = a := by simpa using h
      rw [List.set_cons_zero, this]
    | succ j =>
      have h2 : xs[j]? = some a := by simpa using h
      rw [List.set_cons_succ, ih j a h2]

/-- Replacing a record by one with the same roll leaves the roll sequence
unchanged. -/
theorem map_roll_set (store : List Student) (idx : Nat) (s s2 : Student)
    (hs : store[idx]? = some s) (hroll : s2.roll = s.roll) :
    (store.set idx s2).map (fun t => t.roll) = store.map (fun t => t.roll) := by
  rw [List.map_set]
  have h2 : (store.map (fun t => t.roll))[idx]? = some s2.roll := by
    rw [List.getElem?_map, hs, hroll]
    rfl
  exact set_getElem_self _ idx _ h2

/-- `updateName` either leaves the store unchanged or overwrites the found
index with the renamed, recomputed record. -/
theorem updateName_cases (st : List Student) (roll : Int) (nm : List Char) :
    updateName st roll nm = st ∨
    ∃ idx s, st[idx]? = some s ∧ nm ≠ [] ∧
      updateName st roll nm
        = st.set idx (recompute { s with name := (sanitizeName nm).take (MAX_NAME - 1) }) := by
  cases hfind : findIndexByRoll st roll with
  | none => left; simp [updateName, hfind]
  | some idx =>
    by_cases hnm0 : nm = []
    · left; simp [updateName, hfind, hnm0]
    · cases hget : st[idx]? with
      | none => left; simp [updateName, hfind, hnm0, hget]
      | some s =>
        right
        refine ⟨idx, s, hget, hnm0, ?_⟩
        simp [updateName, hfind, hnm0, hget]

/-- `updateMarks` either leaves the store unchanged or overwrites the found
index with the re-marked, recomputed record. -/
theorem updateMarks_cases (st : List Student) (roll : Int) (marks : List Int) :
    updateMarks st roll marks = st ∨
    ∃ idx s, st[idx]? = some s ∧
      updateMarks st roll marks
        = st.set idx (recompute (recompute
            { s with subjectCount := marks.length, marks := marks })) := by
  cases hfind : findIndexByRoll st roll with
  | none => left; simp [updateMarks, hfind]
  | some idx =>
    cases hget : st[idx]? with
    | none => left; simp [updateMarks, hfind, hget]
    | some s =>
      right
      refine ⟨idx, s, hget, ?_⟩
      simp [updateMarks, hfind, hget]

/-- Well-formedness never inspects the average field. -/
theorem WF_average_irrelevant (s : Student) (q : ℚ) :
    WF { s with average := q } ↔ WF s := Iff.rfl

/-- Reachable stores respect capacity, hold only well-formed records, and
keep rolls pairwise distinct. -/
theorem reachable_inv (st : List Student) (h : Reachable st) :
    st.length ≤ MAX_STUDENTS ∧ (∀ s ∈ st, WF s) ∧
      st.Pairwise (fun a b => a.roll ≠ b.roll) := by
  induction h with
  | empty => exact ⟨by simp, by simp, List.Pairwise.nil⟩
  | @add st nm marks hnm hcnt hmarks hr ih =>
    obtain ⟨ihlen, ihwf, ihpw⟩ := ih
    by_cases hcap : st.length ≥ MAX_STUDENTS
    · have hres : (addStudent st nm marks).1 = st := by
        unfold addStudent; rw [if_pos hcap]
      rw [hres]
      exact ⟨ihlen, ihwf, ihpw⟩
    · by_cases hnm0 : nm = []
      · have hres : (addStudent st nm marks).1 = st := by
          unfold addStudent; rw [if_neg hcap, if_pos hnm0]
        rw [hres]
        exact ⟨ihlen, ihwf, ihpw⟩
      · obtain ⟨s, h1, h2, h3, h4⟩ :=
          addStudent_appends_fresh st nm marks (not_le.mp hcap) hnm0
        rw [h2]
        refine ⟨?_, ?_, ?_⟩
        · rw [List.length_append]
          have := not_le.mp hcap
          simp only [List.length_cons, List.length_nil]
          omega
        · intro t ht
          rcases List.mem_append.mp ht with hmem | hmem
          · exact ihwf t hmem
          · have ht2 : t = s := by simpa using hmem
            subst ht2
            exact addStudent_WF st nm marks t h1 hnm hcnt hmarks
        · rw [List.pairwise_append]
          refine ⟨ihpw, List.pairwise_singleton _ _, ?_⟩
          intro a ha b hb
          have hb2 : b = s := by simpa using hb
          subst hb2
          exact h4 a ha
  | @updName st roll nm hnm hr ih =>
    obtain ⟨ihlen, ihwf, ihpw⟩ := ih
    rcases updateName_cases st roll nm with hres | ⟨idx, s, hget, hnm0, hres⟩
    · rw [hres]; exact ⟨ihlen, ihwf, ihpw⟩
    · rw [hres]
      have hwfs := ihwf s (List.getElem?_mem hget)
      refine ⟨by rw [List.length_set]; exact ihlen, ?_, ?_⟩
      · intro t ht
        rcases List.mem_or_eq_of_mem_set ht with hmem | hmem
        · exact ihwf t hmem
        · subst hmem
          obtain ⟨hf1, hf2, hf3, hf4, hf5, hf6⟩ :=
            sanitize_name_fields nm hnm0 hnm.1 hnm.2.1 hnm.2.2
          obtain ⟨_, _, _, _, _, _, hc1, hc2, hml, hmb, _⟩ := hwfs
          exact ⟨hf1, hf2, hf3, hf4, hf5, hf6, hc1, hc2, hml, hmb,
            calculateGrade_mem _⟩
      · have hmr := map_roll_set st idx s
          (recompute { s with name := (sanitizeName nm).take (MAX_NAME - 1) }) hget rfl
        have hpw2 : (st.map (fun t => t.roll)).Pairwise (fun a b => a ≠ b) :=
          List.pairwise_map.mpr ihpw
        have hpw3 := hmr ▸ hpw2
        exact List.pairwise_map.mp hpw3
  | @updMarks st roll marks hcnt hmarks hr ih =>
    obtain ⟨ihlen, ihwf, ihpw⟩ := ih
    rcases updateMarks_cases st roll marks with hres | ⟨idx, s, hget, hres⟩
    · rw [hres]; exact ⟨ihlen, ihwf, ihpw⟩
    · rw [hres]
      have hwfs := ihwf s (List.getElem?_mem hget)
      refine ⟨by rw [List.length_set]; exact ihlen, ?_, ?_⟩
      · intro t ht
        rcases List.mem_or_eq_of_mem_set ht with hmem | hmem
        · exact ihwf t hmem
        · subst hmem
          obtain ⟨hf1, hf2, hf3, hf4, hf5, hf6, _, _, _, _, _⟩ := hwfs
          exact ⟨hf1, hf2, hf3, hf4, hf5, hf6, hcnt.1, hcnt.2, rfl, hmarks,
            calculateGrade_mem _⟩
      · have hmr := map_roll_set st idx s
          (recompute (recompute { s with subjectCount := marks.length, marks := marks }))
          hget rfl
        have hpw2 : (st.map (fun t => t.roll)).Pairwise (fun a b => a ≠ b) :=
          List.pairwise_map.mpr ihpw
        have hpw3 := hmr ▸ hpw2
        exact List.pairwise_map.mp hpw3
  | @del st roll hr ih =>
    obtain ⟨ihlen, ihwf, ihpw⟩ := ih
    have hres : (deleteStudent st roll).1 = st ∨
        ∃ idx, (deleteStudent st roll).1 = st.eraseIdx idx := by
      cases hfind : findIndexByRoll st roll with
      | none => left; simp [deleteStudent, hfind]
      | some idx =>
        right
        refine ⟨idx, ?_⟩
        simp [deleteStudent, hfind]
    rcases hres with hres | ⟨idx, hres⟩
    · rw [hres]; exact ⟨ihlen, ihwf, ihpw⟩
    · rw [hres]
      have hsub := List.eraseIdx_sublist st idx
      exact ⟨le_trans hsub.length_le ihlen,
        fun t ht => ihwf t (hsub.subset ht),
        ihpw.sublist hsub⟩
  | @sortOp st cmp hr ih =>
    obtain ⟨ihlen, ihwf, ihpw⟩ := ih
    have hperm : List.Perm (sortStudents cmp st) st :=
      List.perm_insertionSort _ st
    refine ⟨by rw [hperm.length_eq]; exact ihlen,
      fun t ht => ihwf t (hperm.mem_iff.mp ht), ?_⟩
    exact (List.Perm.pairwise_iff (fun hab => fun he => hab he.symm) hperm).mpr ihpw
  | @load st lines hr ih =>
    rw [loadAll_empty]
    exact ⟨by simp, by simp, List.Pairwise.nil⟩

/-- **C9.** In every store state reachable through the public operations —
add, update, delete, sort, and load of a persistence file of arbitrary
content — the roll values of live records are pairwise distinct.  (Loads
contribute nothing to the store: every line is skipped, so a load yields
the empty store, whose rolls are trivially distinct.) -/
theorem reachable_rolls_distinct (st : List Student) (h : Reachable st) :
    st.Pairwise (fun a b => a.roll ≠ b.roll) :=
  (reachable_inv st h).2.2

/-- Witness for C9: the store reached by one add from empty. -/
theorem reachable_rolls_distinct_witness :
    ((addStudent [] ['A'] [50]).1).Pairwise (fun a b => a.roll ≠ b.roll) :=
  reachable_rolls_distinct (addStudent [] ['A'] [50]).1
    (Reachable.add ['A'] [50] (by decide) (by decide) (by decide) Reachable.empty)
